import Mathlib

/-!
# Verification of the KDTree spatial index

A shallow embedding of `src/src/KDTree/KDTree.C` (namespace `Foam`), a
k-dimensional tree over an immutable point set supporting exact
nearest-neighbour queries, together with the brute-force reference scan
from `src/applications/testKDTree/testKDTree.C`.

Modelling conventions:
* `scalar` (C++ `double`) is modelled as `ℚ`;
* `scalarField` is `List ℚ`, `List<scalarField>` is `List (List ℚ)`;
* `label` indices stored in the tree are `Nat` (they are always ≥ 0);
  the search's best-index variable, which can hold the sentinel `-1`,
  is `Int`;
* `FatalErrorInFunction << ... << abort(FatalError)` is modelled as an
  `Except KDError` result;
* the integer division-by-zero fault of `depth % k_` when `k_ = 0`
  (C++ undefined behaviour, in practice SIGFPE) is modelled as the
  distinguished error `KDError.modByZero`;
* the `while`/`for` loops of `partitionIndices` and the recursion of
  `buildTree` are written with an explicit trip-count (fuel) argument so
  that they are structural recursions; the wrappers instantiate the fuel
  with the exact bound implied by the loop structure, and the
  fuel-insensitivity theorem for `partitionLoop` is proved below.
-/

set_option maxHeartbeats 1600000

/-- A point (`scalarField`): a vector of coordinates. -/
abbrev Pt := List ℚ

/-- Coordinate `axis` of the point stored at position `i` of the point list:
`points_[i][axis]` in the C++ source. Out-of-range accesses (which the
source never performs on the inputs we consider) default to `0`. -/
def keyOf (pts : List Pt) (axis i : Nat) : ℚ :=
  (pts.getD i []).getD axis 0

/-- `KDTree::distSqr`, lines 163-176: squared Euclidean distance summed
over coordinates `0 ≤ d < k`. -/
def distSqr (k : Nat) (a b : Pt) : ℚ :=
  (List.range k).foldl
    (fun sum d => sum + (a.getD d 0 - b.getD d 0) * (a.getD d 0 - b.getD d 0)) 0

/-- `std::swap(indices[i], indices[j])` on a list. -/
def swapL (l : List Nat) (i j : Nat) : List Nat :=
  (l.set i (l.getD j 0)).set j (l.getD i 0)

/-- The inner `for` loop of `KDTree::partitionIndices`, lines 77-84
(a Lomuto partition pass): scans positions `i, i+1, ...` for `fuel`
steps (the wrapper passes `right - left`, the exact trip count),
swapping elements with key `< pivotVal` down to `storeIdx`.
Returns the final list and `storeIdx`. -/
def lomutoLoop (pts : List Pt) (axis : Nat) (pivotVal : ℚ) :
    Nat → List Nat → Nat → Nat → List Nat × Nat
  | 0, l, _, storeIdx => (l, storeIdx)
  | fuel + 1, l, i, storeIdx =>
    if keyOf pts axis (l.getD i 0) < pivotVal then
      lomutoLoop pts axis pivotVal fuel (swapL l i storeIdx) (i + 1) (storeIdx + 1)
    else
      lomutoLoop pts axis pivotVal fuel l (i + 1) storeIdx

/-- One iteration of the outer `while` loop of `KDTree::partitionIndices`,
lines 67-88: pick the middle element as pivot, swap it to `right`, run the
Lomuto pass over `[left, right)`, swap the pivot back to its final place
`storeIdx`. Returns the rearranged list and `storeIdx`. -/
def partitionStep (pts : List Pt) (axis : Nat) (l : List Nat) (left right : Nat) :
    List Nat × Nat :=
  let mid := (left + right) / 2
  let pivotVal := keyOf pts axis (l.getD mid 0)
  let l1 := swapL l mid right
  let res := lomutoLoop pts axis pivotVal (right - left) l1 left left
  (swapL res.1 res.2 right, res.2)

/-- The outer `while (left < right)` loop of `KDTree::partitionIndices`,
lines 67-102, with an explicit iteration bound `fuel` (each iteration
narrows `[left, right]` by at least one element, so the wrapper's
`end - start` is always sufficient; see `partitionLoop_fuel_irrel`).
`kk` is the target rank (parameter `k` in the source). -/
def partitionLoop (pts : List Pt) (axis : Nat) :
    Nat → List Nat → Nat → Nat → Nat → List Nat
  | 0, l, _, _, _ => l
  | fuel + 1, l, left, right, kk =>
    if left < right then
      match partitionStep pts axis l left right with
      | (l', storeIdx) =>
        if storeIdx = kk then l'
        else if kk < storeIdx then partitionLoop pts axis fuel l' left (storeIdx - 1) kk
        else partitionLoop pts axis fuel l' (storeIdx + 1) right kk
    else l

/-- `KDTree::partitionIndices`, lines 49-103: QuickSelect over
`indices[start, stop)` on key `axis`, placing the rank-`kk` element at
position `kk` (the source calls the rank parameter `k`).
`left = start`, `right = stop - 1` as in lines 64-65. -/
def partitionIndices (pts : List Pt) (indices : List Nat)
    (start stop axis kk : Nat) : List Nat :=
  partitionLoop pts axis (stop - start) indices start (stop - 1) kk

/-- `KDTree::Node` (declared in the missing header, reconstructed from its
uses in `KDTree.C`): either an invalid `autoPtr` (`nil`), a leaf holding
point indices, or an internal node with a split-point index, an axis and
two children.  The search distinguishes leaves by `leafIndices` being
non-empty (line 193); `buildTree` only ever creates non-empty leaves. -/
inductive Node where
  | nil : Node
  | leaf (leafIndices : List Nat) : Node
  | node (pointIndex : Nat) (axis : Nat) (left right : Node) : Node
deriving DecidableEq, Repr

/-- All point indices stored in a (sub)tree: leaf members plus internal
split-point indices. -/
def treeIdxs : Node → List Nat
  | .nil => []
  | .leaf li => li
  | .node pi _ l r => pi :: (treeIdxs l ++ treeIdxs r)

/-- Errors of the modelled program: `FatalErrorInFunction ... abort` on a
dimension mismatch (constructor lines 27-31, query lines 258-261 and
281-284), and the integer `%`-by-zero fault of line 136 when `k_ = 0`. -/
inductive KDError where
  | dimensionMismatch : KDError
  | modByZero : KDError
deriving DecidableEq, Repr

/-- `KDTree::buildTree`, lines 109-157, with a structural fuel argument
(the wrapper passes `stop - start`; every recursive call strictly shrinks
the range, and a range of size `0` is the `nil` base case, so the fuel is
exact).  Returns the built subtree and the rearranged index list.
When the internal-node case is reached with `k = 0`, line 136 divides by
zero: modelled as `KDError.modByZero`. -/
def buildTreeF (pts : List Pt) (k leafSize : Nat) :
    Nat → List Nat → Nat → Nat → Nat → Except KDError (Node × List Nat)
  | 0, indices, _, _, _ => .ok (.nil, indices)
  | fuel + 1, indices, start, stop, depth =>
    let count := stop - start
    if count = 0 then .ok (.nil, indices)
    else if count ≤ leafSize then
      .ok (.leaf ((List.range count).map fun i => indices.getD (start + i) 0), indices)
    else if k = 0 then .error .modByZero
    else
      let axis := depth % k
      let midIndex := start + count / 2
      let l1 := partitionIndices pts indices start stop axis midIndex
      match buildTreeF pts k leafSize fuel l1 start midIndex (depth + 1) with
      | .error e => .error e
      | .ok (lt, l2) =>
        match buildTreeF pts k leafSize fuel l2 (midIndex + 1) stop (depth + 1) with
        | .error e => .error e
        | .ok (rt, l3) => .ok (.node (l1.getD midIndex 0) axis lt rt, l3)

/-- `KDTree::buildTree` on the range `[start, stop)`. -/
def buildTree (pts : List Pt) (k leafSize : Nat) (indices : List Nat)
    (start stop depth : Nat) : Except KDError (Node × List Nat) :=
  buildTreeF pts k leafSize (stop - start) indices start stop depth

/-- The `Foam::KDTree` object: the stored point list, dimension `k_`,
leaf-size threshold `leafSize_` and root node.  `leafSize_` is declared in
the missing header; per spec §6 it is a build-time configuration constant,
so it is carried as a field set at construction. -/
structure KDTree where
  points : List Pt
  k : Nat
  leafSize : Nat
  root : Node
deriving DecidableEq, Repr

/-- `KDTree::KDTree`, lines 11-43: record `k_` from the first point
(or `0` if empty), return immediately on an empty point set, check every
point's dimension against `k_` (abort with `DimensionMismatch` at the
first offender), then build the tree over the index list `[0, …, n)`. -/
def KDTree.make (points : List Pt) (leafSize : Nat) : Except KDError KDTree :=
  let k := if points.isEmpty then 0 else (points.headD []).length
  if points.isEmpty then
    .ok { points := points, k := k, leafSize := leafSize, root := .nil }
  else
    match (List.range points.length).find? (fun i => (points.getD i []).length != k) with
    | some _ => .error .dimensionMismatch
    | none =>
      match buildTree points k leafSize (List.range points.length) 0 points.length 0 with
      | .error e => .error e
      | .ok (root, _) =>
        .ok { points := points, k := k, leafSize := leafSize, root := root }

/-- Modelled from the spec: the OpenFOAM constant `GREAT`, used at lines
265 and 288 to initialise the best squared distance, is defined outside
this repository; spec §4.4 describes it as "a sentinel representing
positive infinity" and §6 as the sentinel "infinite" distance.  It is
modelled as the top element of `WithTop ℚ`, strictly above every
rational. -/
def GREAT : WithTop ℚ := ⊤

/-- The strict-improvement update applied to each candidate point in
`KDTree::nearestSearch` (lines 198-204 for leaf members, 212-219 for the
split point): replace the current best only if the candidate's squared
distance is strictly smaller. -/
def updBest (pts : List Pt) (k : Nat) (q : Pt) (s : Int × WithTop ℚ) (idx : Nat) :
    Int × WithTop ℚ :=
  let d2 : ℚ := distSqr k (pts.getD idx []) q
  if (d2 : WithTop ℚ) < s.2 then (((idx : Nat) : Int), (d2 : WithTop ℚ)) else s

/-- `KDTree::nearestSearch`, lines 182-243: recursive branch-and-bound
traversal threading `(bestIndex, bestDistSqr)`.  A null child pointer
(`nil`) is simply not visited; a leaf scans its members; an internal node
first considers its split point, then recurses into the near child
(chosen by the sign of `diff = query[axis] - split[axis]`) and into the
far child only if `diff² < bestDistSqr`. -/
def nearestSearch (pts : List Pt) (k : Nat) (q : Pt) :
    Node → Int × WithTop ℚ → Int × WithTop ℚ
  | .nil, s => s
  | .leaf li, s => li.foldl (updBest pts k q) s
  | .node pi ax l r, s =>
    let s1 := updBest pts k q s pi
    let diff := q.getD ax 0 - keyOf pts ax pi
    if diff < 0 then
      let s2 := nearestSearch pts k q l s1
      if ((diff * diff : ℚ) : WithTop ℚ) < s2.2 then nearestSearch pts k q r s2 else s2
    else
      let s2 := nearestSearch pts k q r s1
      if ((diff * diff : ℚ) : WithTop ℚ) < s2.2 then nearestSearch pts k q l s2 else s2

/-- `KDTree::nearest`, lines 249-270: return the sentinel `-1` for an
empty tree (before any dimension check), abort on a query of the wrong
dimension, otherwise run the full search and return the best index. -/
def KDTree.nearest (t : KDTree) (q : Pt) : Except KDError Int :=
  if t.root = Node.nil then .ok (-1)
  else if q.length ≠ t.k then .error .dimensionMismatch
  else .ok (nearestSearch t.points t.k q t.root (-1, GREAT)).1

/-- `KDTree::nearestDistSqr`, lines 272-293: return the sentinel `GREAT`
for an empty tree (before any dimension check), abort on a query of the
wrong dimension, otherwise run the full search and return the best
squared distance. -/
def KDTree.nearestDistSqr (t : KDTree) (q : Pt) : Except KDError (WithTop ℚ) :=
  if t.root = Node.nil then .ok GREAT
  else if q.length ≠ t.k then .error .dimensionMismatch
  else .ok (nearestSearch t.points t.k q t.root (-1, GREAT)).2

/-- `bruteNearest` from `testKDTree.C`, lines 94-109: exhaustive scan over
all points, accumulating squared distance over `q.size()` coordinates,
with the same strict-improvement update and `(-1, GREAT)` initial state.
Returns `(idx, bestD2)`. -/
def bruteNearest (pts : List Pt) (q : Pt) : Int × WithTop ℚ :=
  (List.range pts.length).foldl
    (fun s i =>
      let d2 : ℚ := distSqr q.length (pts.getD i []) q
      if (d2 : WithTop ℚ) < s.2 then (((i : Nat) : Int), (d2 : WithTop ℚ)) else s)
    (-1, GREAT)

/-- The sub-list of `l` at positions `[a, b)`. -/
def sliceL (l : List Nat) (a b : Nat) : List Nat :=
  (l.drop a).take (b - a)

/-- The multiset of elements of `l` at positions `[a, b)`. -/
def sliceM (l : List Nat) (a b : Nat) : Multiset Nat :=
  (sliceL l a b : Multiset Nat)

/-- The tree invariant established by construction (claim C4): an internal
node created at depth `d` has axis `d % k` (with `k > 0`, since a zero
`k` faults before any internal node is created), every point in its left
subtree has axis-value ≤ the split point's, every point in its right
subtree has axis-value ≥ it, and both children satisfy the invariant at
depth `d + 1`. -/
def WF (pts : List Pt) (k : Nat) : Nat → Node → Prop
  | _, .nil => True
  | _, .leaf _ => True
  | depth, .node pi ax l r =>
    0 < k ∧ ax = depth % k ∧
    (∀ i ∈ treeIdxs l, keyOf pts ax i ≤ keyOf pts ax pi) ∧
    (∀ i ∈ treeIdxs r, keyOf pts ax pi ≤ keyOf pts ax i) ∧
    WF pts k (depth + 1) l ∧ WF pts k (depth + 1) r

/-- Squared distance from the query to the point with index `i`, as an
element of `WithTop ℚ` (so it can be compared with `GREAT`). -/
def qdist (pts : List Pt) (k : Nat) (q : Pt) (i : Nat) : WithTop ℚ :=
  ((distSqr k (pts.getD i []) q : ℚ) : WithTop ℚ)

/-- Infimum of the squared distances from the query to the points indexed
by `is` (`⊤` for the empty list). -/
def infD (pts : List Pt) (k : Nat) (q : Pt) (is : List Nat) : WithTop ℚ :=
  ((is.map (qdist pts k q) : List (WithTop ℚ)) : Multiset (WithTop ℚ)).inf

/-! ## Basic list access and swap lemmas -/

lemma getD_eq_getElem' {l : List Nat} {p : Nat} (h : p < l.length) :
    l.getD p 0 = l[p] :=
  List.getD_eq_getElem l 0 h

lemma getD_eq_zero_of_le {l : List Nat} {p : Nat} (h : l.length ≤ p) :
    l.getD p 0 = 0 := by
  rw [List.getD_eq_getElem?_getD, List.getElem?_eq_none (by omega)]
  rfl

lemma length_swapL (l : List Nat) (i j : Nat) : (swapL l i j).length = l.length := by
  simp [swapL]

lemma getD_swapL_right {l : List Nat} {i j : Nat} (hj : j < l.length) :
    (swapL l i j).getD j 0 = l.getD i 0 := by
  unfold swapL
  rw [getD_eq_getElem' (by simpa using hj), List.getElem_set_self]

lemma getD_swapL_left {l : List Nat} {i j : Nat} (hi : i < l.length) (hne : i ≠ j) :
    (swapL l i j).getD i 0 = l.getD j 0 := by
  unfold swapL
  rw [List.getD_eq_getElem?_getD, List.getElem?_set_ne (by omega),
    List.getElem?_set_self' , List.getElem?_eq_getElem hi]
  simp

lemma getD_swapL_other {l : List Nat} {i j p : Nat} (hpi : p ≠ i) (hpj : p ≠ j) :
    (swapL l i j).getD p 0 = l.getD p 0 := by
  unfold swapL
  rw [List.getD_eq_getElem?_getD, List.getElem?_set_ne (by omega),
    List.getElem?_set_ne (by omega), ← List.getD_eq_getElem?_getD]

lemma self_decomp {l : List Nat} {i : Nat} (h : i < l.length) :
    l = l.take i ++ l.getD i 0 :: l.drop (i + 1) := by
  conv_lhs => rw [← List.take_append_drop i l]
  rw [List.drop_eq_getElem_cons h, getD_eq_getElem' h]

lemma set_decomp {l : List Nat} {i : Nat} (a : Nat) (h : i < l.length) :
    l.set i a = l.take i ++ a :: l.drop (i + 1) := by
  rw [List.set_eq_take_append_cons_drop, if_pos h]

lemma multiset_set {l : List Nat} {i : Nat} (a : Nat) (h : i < l.length) :
    ((l.set i a : List Nat) : Multiset Nat) + {l.getD i 0} =
      (l : Multiset Nat) + {a} := by
  rw [set_decomp a h]
  conv_rhs => rw [self_decomp h]
  simp only [← Multiset.coe_add, ← Multiset.cons_coe, ← Multiset.singleton_add]
  abel

lemma multiset_swapL {l : List Nat} {i j : Nat} (hi : i < l.length) (hj : j < l.length) :
    ((swapL l i j : List Nat) : Multiset Nat) = (l : Multiset Nat) := by
  unfold swapL
  rcases eq_or_ne i j with rfl | hne
  · -- set twice at the same position: the final value is the original one
    rw [List.set_set, set_decomp _ hi, ← self_decomp hi]
  · have h1 := multiset_set (l := l) (i := i) (l.getD j 0) hi
    have hj' : j < (l.set i (l.getD j 0)).length := by simpa using hj
    have h2 := multiset_set (l := l.set i (l.getD j 0)) (i := j) (l.getD i 0) hj'
    have hgd : (l.set i (l.getD j 0)).getD j 0 = l.getD j 0 := by
      rw [List.getD_eq_getElem?_getD, List.getElem?_set_ne (by omega),
        ← List.getD_eq_getElem?_getD]
    rw [hgd] at h2
    exact add_right_cancel (h2.trans h1)

/-! ## Slice lemmas -/

lemma length_sliceL {l : List Nat} {a b : Nat} (hb : b ≤ l.length) :
    (sliceL l a b).length = b - a := by
  simp only [sliceL, List.length_take, List.length_drop]
  omega

lemma getElem_sliceL {l : List Nat} {a b i : Nat} (hb : b ≤ l.length)
    (h : i < (sliceL l a b).length) :
    (sliceL l a b)[i] = l.getD (a + i) 0 := by
  rw [length_sliceL hb] at h
  have hlt : a + i < l.length := by omega
  simp only [sliceL]
  rw [List.getElem_take, List.getElem_drop, getD_eq_getElem' hlt]

lemma mem_sliceL {l : List Nat} {a b : Nat} (hb : b ≤ l.length) {x : Nat} :
    x ∈ sliceL l a b ↔ ∃ p, a ≤ p ∧ p < b ∧ l.getD p 0 = x := by
  rw [List.mem_iff_getElem]
  constructor
  · rintro ⟨i, hi, rfl⟩
    refine ⟨a + i, by omega, ?_, (getElem_sliceL hb hi).symm⟩
    have := hi; rw [length_sliceL hb] at this; omega
  · rintro ⟨p, hap, hpb, rfl⟩
    have hi : p - a < (sliceL l a b).length := by rw [length_sliceL hb]; omega
    refine ⟨p - a, hi, ?_⟩
    rw [getElem_sliceL hb hi]
    congr 1; omega

lemma getD_mem_sliceM {l : List Nat} {a b p : Nat} (hb : b ≤ l.length)
    (hap : a ≤ p) (hpb : p < b) : l.getD p 0 ∈ sliceM l a b := by
  rw [sliceM, Multiset.mem_coe, mem_sliceL hb]
  exact ⟨p, hap, hpb, rfl⟩

lemma sliceL_eq_of_pointwise {l r : List Nat} {a b : Nat}
    (hlen : r.length = l.length) (hb : b ≤ l.length)
    (h : ∀ p, a ≤ p → p < b → r.getD p 0 = l.getD p 0) :
    sliceL r a b = sliceL l a b := by
  have hb' : b ≤ r.length := by omega
  apply List.ext_getElem
  · rw [length_sliceL hb, length_sliceL hb']
  · intro i h1 h2
    rw [getElem_sliceL hb' h1, getElem_sliceL hb h2]
    rw [length_sliceL hb'] at h1
    exact h (a + i) (by omega) (by omega)

lemma take_eq_of_pointwise {l r : List Nat} {a : Nat}
    (hlen : r.length = l.length)
    (h : ∀ p, p < a → r.getD p 0 = l.getD p 0) :
    r.take a = l.take a := by
  apply List.ext_getElem
  · simp [hlen]
  · intro i h1 h2
    simp only [List.length_take] at h1 h2
    rw [List.getElem_take, List.getElem_take,
      ← getD_eq_getElem' (l := r) (by omega), ← getD_eq_getElem' (l := l) (by omega)]
    exact h i (by omega)

lemma drop_eq_of_pointwise {l r : List Nat} {b : Nat}
    (hlen : r.length = l.length)
    (h : ∀ p, b ≤ p → r.getD p 0 = l.getD p 0) :
    r.drop b = l.drop b := by
  apply List.ext_getElem
  · simp [hlen]
  · intro i h1 h2
    simp only [List.length_drop] at h1 h2
    rw [List.getElem_drop, List.getElem_drop,
      ← getD_eq_getElem' (l := r) (by omega), ← getD_eq_getElem' (l := l) (by omega)]
    exact h (b + i) (by omega)

lemma sliceL_decomp {l : List Nat} {a b : Nat} (hab : a ≤ b) (hb : b ≤ l.length) :
    l = l.take a ++ (sliceL l a b ++ l.drop b) := by
  conv_lhs => rw [← List.take_append_drop a l]
  congr 1
  conv_lhs => rw [← List.take_append_drop (b - a) (l.drop a)]
  rw [sliceL, List.drop_drop]
  congr 2
  omega

/-- Lists of equal length that agree outside `[a, b)` and are permutations
of each other have permuted slices `[a, b)`. -/
lemma sliceM_eq_of {l r : List Nat} {a b : Nat}
    (hlen : r.length = l.length) (hab : a ≤ b) (hb : b ≤ l.length)
    (hout : ∀ p, p < a ∨ b ≤ p → r.getD p 0 = l.getD p 0)
    (hm : (r : Multiset Nat) = (l : Multiset Nat)) :
    sliceM r a b = sliceM l a b := by
  have hb' : b ≤ r.length := by omega
  have ht : r.take a = l.take a :=
    take_eq_of_pointwise hlen (fun p hp => hout p (Or.inl hp))
  have hd : r.drop b = l.drop b :=
    drop_eq_of_pointwise hlen (fun p hp => hout p (Or.inr hp))
  have hr := sliceL_decomp (l := r) hab hb'
  have hl := sliceL_decomp (l := l) hab hb
  rw [hr, hl, ht, hd] at hm
  simp only [← Multiset.coe_add] at hm
  have hm' : (sliceL r a b : Multiset Nat) + ((l.take a : Multiset Nat) + (l.drop b : Multiset Nat)) =
      (sliceL l a b : Multiset Nat) + ((l.take a : Multiset Nat) + (l.drop b : Multiset Nat)) := by
    calc (sliceL r a b : Multiset Nat) + ((l.take a : Multiset Nat) + (l.drop b : Multiset Nat))
        = (l.take a : Multiset Nat) + ((sliceL r a b : Multiset Nat) + (l.drop b : Multiset Nat)) := by abel
      _ = (l.take a : Multiset Nat) + ((sliceL l a b : Multiset Nat) + (l.drop b : Multiset Nat)) := hm
      _ = (sliceL l a b : Multiset Nat) + ((l.take a : Multiset Nat) + (l.drop b : Multiset Nat)) := by abel
  exact add_right_cancel hm'

lemma sliceL_split {l : List Nat} {a m b : Nat} (ham : a ≤ m) (hmb : m < b)
    (hb : b ≤ l.length) :
    sliceL l a b = sliceL l a m ++ l.getD m 0 :: sliceL l (m + 1) b := by
  have hm : m < l.length := by omega
  simp only [sliceL]
  have h1 : b - a = (m - a) + (b - m) := by omega
  rw [h1, List.take_add]
  congr 1
  rw [List.drop_drop]
  have h2 : a + (m - a) = m := by omega
  rw [h2, List.drop_eq_getElem_cons hm, getD_eq_getElem' hm]
  have h3 : b - m = (b - (m + 1)) + 1 := by omega
  rw [h3, List.take_succ_cons]

lemma sliceL_full (l : List Nat) : sliceL l 0 l.length = l := by
  simp [sliceL]

/-! ## Correctness of the Lomuto pass (inner `for` loop) -/

lemma lomutoLoop_spec (pts : List Pt) (axis : Nat) (piv : ℚ) :
    ∀ (fuel : Nat) (l : List Nat) (i s lo : Nat),
    lo ≤ s → s ≤ i → i + fuel ≤ l.length →
    (∀ p, lo ≤ p → p < s → keyOf pts axis (l.getD p 0) < piv) →
    (∀ p, s ≤ p → p < i → piv ≤ keyOf pts axis (l.getD p 0)) →
    (lomutoLoop pts axis piv fuel l i s).1.length = l.length ∧
    s ≤ (lomutoLoop pts axis piv fuel l i s).2 ∧
    (lomutoLoop pts axis piv fuel l i s).2 ≤ i + fuel ∧
    (∀ p, p < s ∨ i + fuel ≤ p →
      (lomutoLoop pts axis piv fuel l i s).1.getD p 0 = l.getD p 0) ∧
    ((lomutoLoop pts axis piv fuel l i s).1 : Multiset Nat) = (l : Multiset Nat) ∧
    (∀ p, lo ≤ p → p < (lomutoLoop pts axis piv fuel l i s).2 →
      keyOf pts axis ((lomutoLoop pts axis piv fuel l i s).1.getD p 0) < piv) ∧
    (∀ p, (lomutoLoop pts axis piv fuel l i s).2 ≤ p → p < i + fuel →
      piv ≤ keyOf pts axis ((lomutoLoop pts axis piv fuel l i s).1.getD p 0)) := by
  intro fuel
  induction fuel with
  | zero =>
    intro l i s lo h1 h2 h3 h4 h5
    exact ⟨rfl, le_refl s, by simp only [lomutoLoop]; omega, fun p _ => rfl, rfl, h4, h5⟩
  | succ fuel ih =>
    intro l i s lo h1 h2 h3 h4 h5
    have hi : i < l.length := by omega
    have hs : s < l.length := by omega
    simp only [lomutoLoop]
    by_cases hc : keyOf pts axis (l.getD i 0) < piv
    · rw [if_pos hc]
      have hlen : (swapL l i s).length = l.length := length_swapL l i s
      have inv1 : ∀ p, lo ≤ p → p < s + 1 →
          keyOf pts axis ((swapL l i s).getD p 0) < piv := by
        intro p hp1 hp2
        rcases Nat.lt_or_ge p s with hps | hps
        · rw [getD_swapL_other (by omega) (by omega)]
          exact h4 p hp1 hps
        · have hp : p = s := by omega
          subst hp
          rw [getD_swapL_right hs]
          exact hc
      have inv2 : ∀ p, s + 1 ≤ p → p < i + 1 →
          piv ≤ keyOf pts axis ((swapL l i s).getD p 0) := by
        intro p hp1 hp2
        rcases Nat.lt_or_ge p i with hpi | hpi
        · rw [getD_swapL_other (by omega) (by omega)]
          exact h5 p (by omega) hpi
        · have hp : p = i := by omega
          subst hp
          have hsi : s < p := by omega
          rw [getD_swapL_left hi (by omega)]
          exact h5 s (le_refl s) (by omega)
      obtain ⟨c1, c2, c3, c4, c5, c6, c7⟩ :=
        ih (swapL l i s) (i + 1) (s + 1) lo (by omega) (by omega)
          (by rw [hlen]; omega) inv1 inv2
      refine ⟨c1.trans hlen, by omega, by omega, ?_, c5.trans (multiset_swapL hi hs),
        c6, ?_⟩
      · intro p hp
        rw [c4 p (by omega), getD_swapL_other (by omega) (by omega)]
      · intro p hp1 hp2
        exact c7 p hp1 (by omega)
    · rw [if_neg hc]
      have inv2 : ∀ p, s ≤ p → p < i + 1 →
          piv ≤ keyOf pts axis (l.getD p 0) := by
        intro p hp1 hp2
        rcases Nat.lt_or_ge p i with hpi | hpi
        · exact h5 p hp1 hpi
        · have hp : p = i := by omega
          subst hp
          exact not_lt.mp hc
      obtain ⟨c1, c2, c3, c4, c5, c6, c7⟩ :=
        ih l (i + 1) s lo h1 (by omega) (by omega) h4 inv2
      refine ⟨c1, c2, by omega, ?_, c5, c6, ?_⟩
      · intro p hp
        exact c4 p (by omega)
      · intro p hp1 hp2
        exact c7 p hp1 (by omega)

/-! ## Correctness of one outer iteration (`partitionStep`) -/

lemma partitionStep_spec (pts : List Pt) (axis : Nat) (l : List Nat)
    (left right : Nat) (hlr : left ≤ right) (hr : right < l.length) :
    left ≤ (partitionStep pts axis l left right).2 ∧
    (partitionStep pts axis l left right).2 ≤ right ∧
    (partitionStep pts axis l left right).1.length = l.length ∧
    (∀ p, p < left ∨ right < p →
      (partitionStep pts axis l left right).1.getD p 0 = l.getD p 0) ∧
    ((partitionStep pts axis l left right).1 : Multiset Nat) = (l : Multiset Nat) ∧
    (∀ p, left ≤ p → p < (partitionStep pts axis l left right).2 →
      keyOf pts axis ((partitionStep pts axis l left right).1.getD p 0) <
        keyOf pts axis (l.getD ((left + right) / 2) 0)) ∧
    keyOf pts axis
        ((partitionStep pts axis l left right).1.getD
          (partitionStep pts axis l left right).2 0) =
      keyOf pts axis (l.getD ((left + right) / 2) 0) ∧
    (∀ p, (partitionStep pts axis l left right).2 < p → p ≤ right →
      keyOf pts axis (l.getD ((left + right) / 2) 0) ≤
        keyOf pts axis ((partitionStep pts axis l left right).1.getD p 0)) := by
  have hmid1 : left ≤ (left + right) / 2 := by omega
  have hmid2 : (left + right) / 2 ≤ right := by omega
  have hmid : (left + right) / 2 < l.length := by omega
  set mid := (left + right) / 2 with hmiddef
  set piv := keyOf pts axis (l.getD mid 0) with hpivdef
  set l1 := swapL l mid right with hl1def
  have hlen1 : l1.length = l.length := length_swapL l mid right
  obtain ⟨c1, c2, c3, c4, c5, c6, c7⟩ :=
    lomutoLoop_spec pts axis piv (right - left) l1 left left left
      (le_refl left) (le_refl left) (by omega)
      (by intro p hp1 hp2; omega) (by intro p hp1 hp2; omega)
  set res := lomutoLoop pts axis piv (right - left) l1 left left with hresdef
  have hrl : left + (right - left) = right := by omega
  rw [hrl] at c3 c4 c7
  have hlen2 : res.1.length = l.length := c1.trans hlen1
  have hs2 : res.2 < l.length := by omega
  -- the pivot sits at `right` throughout the pass
  have hpivr : keyOf pts axis (res.1.getD right 0) = piv := by
    rw [c4 right (Or.inr (le_refl right)), hl1def, getD_swapL_right hr]
  simp only [partitionStep]
  rw [← hmiddef, ← hpivdef, ← hl1def, ← hresdef]
  refine ⟨c2, by omega, ?_, ?_, ?_, ?_, ?_, ?_⟩
  · rw [length_swapL, hlen2]
  · intro p hp
    rw [getD_swapL_other (by omega) (by omega), c4 p (by omega), hl1def,
      getD_swapL_other (by omega) (by omega)]
  · exact (multiset_swapL (by omega) (by omega)).trans
      (c5.trans (multiset_swapL hmid hr))
  · intro p hp1 hp2
    rw [getD_swapL_other (by omega) (by omega)]
    exact c6 p hp1 hp2
  · rcases eq_or_ne res.2 right with he | hne
    · -- the pass stored nothing below the pivot: swapping `right` with
      -- itself leaves the pivot at `right = storeIdx`
      rw [he, getD_swapL_right (show right < res.1.length by omega)]
      exact hpivr
    · rw [getD_swapL_left (show res.2 < res.1.length by omega) hne]
      exact hpivr
  · intro p hp1 hp2
    rcases eq_or_ne p right with he | hne
    · rw [he, getD_swapL_right (show right < res.1.length by omega)]
      rw [he] at hp1
      exact c7 res.2 (le_refl _) hp1
    · rw [getD_swapL_other (by omega) hne]
      exact c7 p (by omega) (by omega)

/-! ## Correctness of the QuickSelect outer loop -/

lemma partitionLoop_spec (pts : List Pt) (axis : Nat) :
    ∀ (fuel : Nat) (l : List Nat) (left right kk : Nat),
    right - left < fuel → left ≤ kk → kk ≤ right → right < l.length →
    (partitionLoop pts axis fuel l left right kk).length = l.length ∧
    (∀ p, p < left ∨ right < p →
      (partitionLoop pts axis fuel l left right kk).getD p 0 = l.getD p 0) ∧
    ((partitionLoop pts axis fuel l left right kk : List Nat) : Multiset Nat) =
      (l : Multiset Nat) ∧
    (∀ p, left ≤ p → p < kk →
      keyOf pts axis ((partitionLoop pts axis fuel l left right kk).getD p 0) ≤
        keyOf pts axis ((partitionLoop pts axis fuel l left right kk).getD kk 0)) ∧
    (∀ p, kk < p → p ≤ right →
      keyOf pts axis ((partitionLoop pts axis fuel l left right kk).getD kk 0) ≤
        keyOf pts axis ((partitionLoop pts axis fuel l left right kk).getD p 0)) := by
  intro fuel
  induction fuel with
  | zero =>
    intro l left right kk h1 h2 h3 h4
    exact absurd h1 (Nat.not_lt_zero _)
  | succ fuel ih =>
    intro l left right kk h1 h2 h3 h4
    by_cases hlr : left < right
    · rcases hPS : partitionStep pts axis l left right with ⟨l', s⟩
      obtain ⟨e1, e2, e3, e4, e5, e6, e7, e8⟩ :=
        partitionStep_spec pts axis l left right (le_of_lt hlr) h4
      rw [hPS] at e1 e2 e3 e4 e5 e6 e7 e8
      dsimp only at e1 e2 e3 e4 e5 e6 e7 e8
      simp only [partitionLoop]
      rw [if_pos hlr, hPS]
      by_cases hek : s = kk
      · subst hek
        rw [if_pos rfl]
        refine ⟨e3, e4, e5, ?_, ?_⟩
        · intro p hp1 hp2
          rw [e7]
          exact le_of_lt (e6 p hp1 hp2)
        · intro p hp1 hp2
          rw [e7]
          exact e8 p hp1 hp2
      · rw [if_neg hek]
        by_cases hks : kk < s
        · rw [if_pos hks]
          obtain ⟨f1, f2, f3, f4, f5⟩ :=
            ih l' left (s - 1) kk (by omega) h2 (by omega) (by rw [e3]; omega)
          set r := partitionLoop pts axis fuel l' left (s - 1) kk with hrdef
          have hrlen : r.length = l.length := f1.trans e3
          have hkey : keyOf pts axis (r.getD kk 0) <
              keyOf pts axis (l.getD ((left + right) / 2) 0) := by
            have hsl : s ≤ l'.length := by rw [e3]; omega
            have hslice : sliceM r left s = sliceM l' left s := by
              refine sliceM_eq_of f1 (by omega) hsl ?_ f3
              intro p hp
              exact f2 p (by omega)
            have hmem : r.getD kk 0 ∈ sliceM r left s :=
              getD_mem_sliceM (by omega) h2 hks
            rw [hslice, sliceM, Multiset.mem_coe, mem_sliceL hsl] at hmem
            obtain ⟨p0, hp01, hp02, hp03⟩ := hmem
            rw [← hp03]
            exact e6 p0 hp01 hp02
          refine ⟨hrlen, ?_, f3.trans e5, f4, ?_⟩
          · intro p hp
            rw [f2 p (by omega)]
            exact e4 p (by omega)
          · intro p hp1 hp2
            rcases Nat.lt_or_ge (s - 1) p with hp3 | hp3
            · -- `p` lies in the settled region `[s, right]`
              have hkp : keyOf pts axis (l.getD ((left + right) / 2) 0) ≤
                  keyOf pts axis (r.getD p 0) := by
                rw [f2 p (by omega)]
                rcases eq_or_ne p s with rfl | hne
                · rw [e7]
                · exact e8 p (by omega) hp2
              exact le_trans (le_of_lt hkey) hkp
            · exact f5 p hp1 hp3
        · rw [if_neg hks]
          have hsk : s < kk := by omega
          obtain ⟨f1, f2, f3, f4, f5⟩ :=
            ih l' (s + 1) right kk (by omega) (by omega) h3 (by rw [e3]; omega)
          set r := partitionLoop pts axis fuel l' (s + 1) right kk with hrdef
          have hrlen : r.length = l.length := f1.trans e3
          have hkey : keyOf pts axis (l.getD ((left + right) / 2) 0) ≤
              keyOf pts axis (r.getD kk 0) := by
            have hsl : right + 1 ≤ l'.length := by rw [e3]; omega
            have hslice : sliceM r (s + 1) (right + 1) = sliceM l' (s + 1) (right + 1) := by
              refine sliceM_eq_of f1 (by omega) hsl ?_ f3
              intro p hp
              exact f2 p (by omega)
            have hmem : r.getD kk 0 ∈ sliceM r (s + 1) (right + 1) :=
              getD_mem_sliceM (by omega) (by omega) (by omega)
            rw [hslice, sliceM, Multiset.mem_coe, mem_sliceL hsl] at hmem
            obtain ⟨p0, hp01, hp02, hp03⟩ := hmem
            rw [← hp03]
            exact e8 p0 (by omega) (by omega)
          refine ⟨hrlen, ?_, f3.trans e5, ?_, f5⟩
          · intro p hp
            rw [f2 p (by omega)]
            exact e4 p (by omega)
          · intro p hp1 hp2
            rcases Nat.lt_or_ge p (s + 1) with hp3 | hp3
            · -- `p` lies in the settled region `[left, s]`
              have hkp : keyOf pts axis (r.getD p 0) ≤
                  keyOf pts axis (l.getD ((left + right) / 2) 0) := by
                rw [f2 p (by omega)]
                rcases eq_or_ne p s with rfl | hne
                · rw [e7]
                · exact le_of_lt (e6 p hp1 (by omega))
              exact le_trans hkp hkey
            · exact f4 p hp3 hp2
    · simp only [partitionLoop]
      rw [if_neg hlr]
      exact ⟨rfl, fun p _ => rfl, rfl,
        fun p hp1 hp2 => by omega, fun p hp1 hp2 => by omega⟩

/-- Full specification of `KDTree::partitionIndices` on a valid range:
positions outside `[start, stop)` are untouched, the list is permuted,
and position `kk` separates smaller-or-equal keys (below) from
greater-or-equal keys (above). -/
lemma partitionIndices_spec (pts : List Pt) (indices : List Nat)
    (start stop axis kk : Nat) (h1 : start < stop) (h2 : start ≤ kk)
    (h3 : kk < stop) (h4 : stop ≤ indices.length) :
    (partitionIndices pts indices start stop axis kk).length = indices.length ∧
    (∀ p, p < start ∨ stop ≤ p →
      (partitionIndices pts indices start stop axis kk).getD p 0 = indices.getD p 0) ∧
    ((partitionIndices pts indices start stop axis kk : List Nat) : Multiset Nat) =
      (indices : Multiset Nat) ∧
    (∀ p, start ≤ p → p < kk →
      keyOf pts axis ((partitionIndices pts indices start stop axis kk).getD p 0) ≤
        keyOf pts axis ((partitionIndices pts indices start stop axis kk).getD kk 0)) ∧
    (∀ p, kk < p → p < stop →
      keyOf pts axis ((partitionIndices pts indices start stop axis kk).getD kk 0) ≤
        keyOf pts axis ((partitionIndices pts indices start stop axis kk).getD p 0)) := by
  obtain ⟨d1, d2, d3, d4, d5⟩ :=
    partitionLoop_spec pts axis (stop - start) indices start (stop - 1) kk
      (by omega) h2 (by omega) (by omega)
  exact ⟨d1, fun p hp => d2 p (by omega), d3, d4, fun p hp1 hp2 => d5 p hp1 (by omega)⟩

/-! ## The partitioned position is the order statistic -/

lemma list_decomp {α : Type} (d : α) {l : List α} {i : Nat} (h : i < l.length) :
    l = l.take i ++ l.getD i d :: l.drop (i + 1) := by
  conv_lhs => rw [← List.take_append_drop i l]
  rw [List.drop_eq_getElem_cons h, List.getD_eq_getElem l d h]

lemma mem_take_getD {α : Type} (d : α) {l : List α} {n : Nat} {a : α}
    (h : a ∈ l.take n) : ∃ i, i < n ∧ i < l.length ∧ l.getD i d = a := by
  rw [List.mem_iff_getElem] at h
  obtain ⟨i, hi, he⟩ := h
  have hi' : i < n ∧ i < l.length := by
    simpa using (List.length_take n l ▸ hi : i < min n l.length)
  refine ⟨i, hi'.1, hi'.2, ?_⟩
  rw [List.getD_eq_getElem l d hi'.2, ← he, List.getElem_take]

lemma mem_drop_getD {α : Type} (d : α) {l : List α} {n : Nat} {a : α}
    (h : a ∈ l.drop n) : ∃ i, n ≤ i ∧ i < l.length ∧ l.getD i d = a := by
  rw [List.mem_iff_getElem] at h
  obtain ⟨i, hi, he⟩ := h
  rw [List.length_drop] at hi
  refine ⟨n + i, by omega, by omega, ?_⟩
  rw [List.getD_eq_getElem l d (by omega), ← he, List.getElem_drop]

/-- If position `j` of `ks` already separates: everything before it is
`≤ ks[j]` and everything after it is `≥ ks[j]`, then sorting `ks` leaves
the value at position `j` unchanged — i.e. `ks[j]` is the rank-`j` order
statistic of `ks`. -/
lemma sorted_getD_of_partitioned (ks : List ℚ) (j : Nat) (hj : j < ks.length)
    (hle : ∀ i, i < j → ks.getD i 0 ≤ ks.getD j 0)
    (hge : ∀ i, j < i → i < ks.length → ks.getD j 0 ≤ ks.getD i 0) :
    (ks.insertionSort (· ≤ ·)).getD j 0 = ks.getD j 0 := by
  set x := ks.getD j 0 with hx
  set A := (ks.take j).insertionSort (· ≤ ·) with hA
  set B := (ks.drop (j + 1)).insertionSort (· ≤ ·) with hB
  have hAperm : A.Perm (ks.take j) := List.perm_insertionSort _ _
  have hBperm : B.Perm (ks.drop (j + 1)) := List.perm_insertionSort _ _
  have hperm : (A ++ x :: B).Perm ks := by
    conv_rhs => rw [list_decomp 0 hj, ← hx]
    exact hAperm.append (hBperm.cons x)
  have hAmem : ∀ a ∈ A, a ≤ x := by
    intro a ha
    obtain ⟨i, hi1, hi2, hi3⟩ := mem_take_getD 0 (hAperm.mem_iff.mp ha)
    rw [← hi3]
    exact hle i hi1
  have hBmem : ∀ b ∈ B, x ≤ b := by
    intro b hb
    obtain ⟨i, hi1, hi2, hi3⟩ := mem_drop_getD 0 (hBperm.mem_iff.mp hb)
    rw [← hi3]
    exact hge i (by omega) hi2
  have hsorted : (A ++ x :: B).Sorted (· ≤ ·) := by
    rw [List.Sorted, List.pairwise_append]
    refine ⟨List.sorted_insertionSort _ _, ?_, ?_⟩
    · rw [List.pairwise_cons]
      exact ⟨hBmem, List.sorted_insertionSort _ _⟩
    · intro a ha b hb
      rcases List.mem_cons.mp hb with rfl | hb'
      · exact hAmem a ha
      · exact le_trans (hAmem a ha) (hBmem b hb')
  have heq : ks.insertionSort (· ≤ ·) = A ++ x :: B :=
    List.eq_of_perm_of_sorted ((List.perm_insertionSort _ ks).trans hperm.symm)
      (List.sorted_insertionSort _ ks) hsorted
  have hAlen : A.length = j := by
    rw [hA, List.length_insertionSort, List.length_take]
    omega
  rw [heq]
  have hjlt : j < (A ++ x :: B).length := by
    rw [List.length_append, hAlen]
    simp
  rw [List.getD_eq_getElem _ 0 hjlt, List.getElem_append_right (by omega)]
  simp [hAlen]

/-! ## Termination structure of the outer loop -/

lemma lomutoLoop_bounds (pts : List Pt) (axis : Nat) (piv : ℚ) :
    ∀ (fuel : Nat) (l : List Nat) (i s : Nat),
    s ≤ (lomutoLoop pts axis piv fuel l i s).2 ∧
    (lomutoLoop pts axis piv fuel l i s).2 ≤ s + fuel := by
  intro fuel
  induction fuel with
  | zero => intro l i s; exact ⟨Nat.le.refl, Nat.le.refl⟩
  | succ fuel ih =>
    intro l i s
    simp only [lomutoLoop]
    by_cases hc : keyOf pts axis (l.getD i 0) < piv
    · rw [if_pos hc]
      obtain ⟨h1, h2⟩ := ih (swapL l i s) (i + 1) (s + 1)
      exact ⟨by omega, by omega⟩
    · rw [if_neg hc]
      obtain ⟨h1, h2⟩ := ih l (i + 1) s
      exact ⟨h1, by omega⟩

/-- Each outer iteration of `partitionIndices` returns a pivot position
inside the active range `[left, right]`; consequently the recursion on
`[left, storeIdx-1]` or `[storeIdx+1, right]` strictly shrinks the range. -/
lemma partitionStep_bounds (pts : List Pt) (axis : Nat) (l : List Nat)
    (left right : Nat) (hlr : left ≤ right) :
    left ≤ (partitionStep pts axis l left right).2 ∧
    (partitionStep pts axis l left right).2 ≤ right := by
  simp only [partitionStep]
  obtain ⟨h1, h2⟩ := lomutoLoop_bounds pts axis
    (keyOf pts axis (l.getD ((left + right) / 2) 0)) (right - left)
    (swapL l ((left + right) / 2) right) left left
  exact ⟨h1, by omega⟩

lemma partitionLoop_succ (pts : List Pt) (axis fuel : Nat) (l : List Nat)
    (left right kk : Nat) :
    partitionLoop pts axis (fuel + 1) l left right kk =
      if left < right then
        match partitionStep pts axis l left right with
        | (l', storeIdx) =>
          if storeIdx = kk then l'
          else if kk < storeIdx then partitionLoop pts axis fuel l' left (storeIdx - 1) kk
          else partitionLoop pts axis fuel l' (storeIdx + 1) right kk
      else l := rfl

/-- The outer loop of `partitionIndices` needs at most `right - left + 1`
iterations: any fuel beyond that bound computes the same result. -/
lemma partitionLoop_fuel_irrel (pts : List Pt) (axis : Nat) :
    ∀ (fuel : Nat) (l : List Nat) (left right kk : Nat),
    right - left < fuel →
    partitionLoop pts axis fuel l left right kk =
      partitionLoop pts axis (right - left + 1) l left right kk := by
  intro fuel
  induction fuel using Nat.strong_induction_on with
  | _ fuel ih =>
    intro l left right kk h1
    match fuel, h1 with
    | fuel + 1, h1 =>
      by_cases hlr : left < right
      · rcases hPS : partitionStep pts axis l left right with ⟨l', s⟩
        obtain ⟨e1, e2⟩ := partitionStep_bounds pts axis l left right (le_of_lt hlr)
        rw [hPS] at e1 e2
        dsimp only at e1 e2
        have hm : right - left = (right - left - 1) + 1 := by omega
        conv_rhs => rw [hm]
        rw [partitionLoop_succ, partitionLoop_succ, if_pos hlr, if_pos hlr, hPS]
        dsimp only
        by_cases hek : s = kk
        · rw [if_pos hek, if_pos hek]
        · rw [if_neg hek, if_neg hek]
          by_cases hks : kk < s
          · rw [if_pos hks, if_pos hks]
            have hgoal1 := ih fuel (by omega) l' left (s - 1) kk (by omega)
            have hgoal2 := ih (right - left - 1 + 1) (by omega) l' left (s - 1) kk (by omega)
            rw [hgoal1, hgoal2]
          · rw [if_neg hks, if_neg hks]
            have hgoal1 := ih fuel (by omega) l' (s + 1) right kk (by omega)
            have hgoal2 := ih (right - left - 1 + 1) (by omega) l' (s + 1) right kk (by omega)
            rw [hgoal1, hgoal2]
      · have hz : right - left = 0 := by omega
        rw [hz]
        rw [partitionLoop_succ, partitionLoop_succ, if_neg hlr, if_neg hlr]

/-! ## Correctness of tree construction -/

lemma buildTreeF_succ (pts : List Pt) (k ls fuel : Nat) (indices : List Nat)
    (start stop depth : Nat) :
    buildTreeF pts k ls (fuel + 1) indices start stop depth =
      (if stop - start = 0 then .ok (.nil, indices)
      else if stop - start ≤ ls then
        .ok (.leaf ((List.range (stop - start)).map fun i => indices.getD (start + i) 0),
          indices)
      else if k = 0 then .error .modByZero
      else
        match buildTreeF pts k ls fuel
            (partitionIndices pts indices start stop (depth % k)
              (start + (stop - start) / 2))
            start (start + (stop - start) / 2) (depth + 1) with
        | .error e => .error e
        | .ok (lt, l2) =>
          match buildTreeF pts k ls fuel l2 (start + (stop - start) / 2 + 1) stop
              (depth + 1) with
          | .error e => .error e
          | .ok (rt, l3) =>
            .ok (.node ((partitionIndices pts indices start stop (depth % k)
                (start + (stop - start) / 2)).getD (start + (stop - start) / 2) 0)
              (depth % k) lt rt, l3)) := rfl

lemma buildTreeF_spec (pts : List Pt) (k ls : Nat) :
    ∀ (fuel : Nat) (l : List Nat) (start stop depth : Nat) (nd : Node) (l' : List Nat),
    stop - start ≤ fuel → stop ≤ l.length →
    buildTreeF pts k ls fuel l start stop depth = .ok (nd, l') →
    l'.length = l.length ∧
    (∀ p, p < start ∨ stop ≤ p → l'.getD p 0 = l.getD p 0) ∧
    ((l' : List Nat) : Multiset Nat) = (l : Multiset Nat) ∧
    ((treeIdxs nd : List Nat) : Multiset Nat) = sliceM l start stop ∧
    WF pts k depth nd ∧
    (start < stop → nd ≠ Node.nil) := by
  intro fuel
  induction fuel with
  | zero =>
    intro l start stop depth nd l' hf hb he
    simp only [buildTreeF, Except.ok.injEq, Prod.mk.injEq] at he
    obtain ⟨h1, h2⟩ := he
    subst h1
    subst h2
    have hss : stop - start = 0 := by omega
    refine ⟨rfl, fun p _ => rfl, rfl, ?_, trivial, fun h => absurd h (by omega)⟩
    simp [treeIdxs, sliceM, sliceL, hss]
  | succ fuel ih =>
    intro l start stop depth nd l' hf hb he
    rw [buildTreeF_succ] at he
    by_cases hc0 : stop - start = 0
    · rw [if_pos hc0] at he
      simp only [Except.ok.injEq, Prod.mk.injEq] at he
      obtain ⟨h1, h2⟩ := he
      subst h1
      subst h2
      refine ⟨rfl, fun p _ => rfl, rfl, ?_, trivial, fun h => absurd h (by omega)⟩
      simp [treeIdxs, sliceM, sliceL, hc0]
    · rw [if_neg hc0] at he
      by_cases hcl : stop - start ≤ ls
      · -- leaf node: the leaf holds exactly the slice `[start, stop)`
        rw [if_pos hcl] at he
        simp only [Except.ok.injEq, Prod.mk.injEq] at he
        obtain ⟨h1, h2⟩ := he
        subst h1
        subst h2
        have hlst : (List.range (stop - start)).map (fun i => l.getD (start + i) 0) =
            sliceL l start stop := by
          apply List.ext_getElem
          · rw [List.length_map, List.length_range, length_sliceL hb]
          · intro i hi1 hi2
            rw [List.getElem_map, List.getElem_range, getElem_sliceL hb hi2]
        refine ⟨rfl, fun p _ => rfl, rfl, ?_, trivial, fun _ => by simp⟩
        rw [treeIdxs, hlst, sliceM]
      · rw [if_neg hcl] at he
        by_cases hk0 : k = 0
        · rw [if_pos hk0] at he
          exact absurd he (by simp)
        · rw [if_neg hk0] at he
          have hdiv : (stop - start) / 2 < stop - start :=
            Nat.div_lt_self (by omega) one_lt_two
          set mid := start + (stop - start) / 2 with hmiddef
          set l1 := partitionIndices pts l start stop (depth % k) mid with hl1def
          obtain ⟨p1, p2, p3, p4, p5⟩ :=
            partitionIndices_spec pts l start stop (depth % k) mid
              (by omega) (by omega) (by omega) hb
          rw [← hl1def] at p1 p2 p3 p4 p5
          rcases hL : buildTreeF pts k ls fuel l1 start mid (depth + 1) with eL | ⟨lt, l2⟩
          · rw [hL] at he
            exact absurd he (by simp)
          · rw [hL] at he
            dsimp only at he
            rcases hR : buildTreeF pts k ls fuel l2 (mid + 1) stop (depth + 1) with
              eR | ⟨rt, l3⟩
            · rw [hR] at he
              exact absurd he (by simp)
            · rw [hR] at he
              dsimp only at he
              simp only [Except.ok.injEq, Prod.mk.injEq] at he
              obtain ⟨h1, h2⟩ := he
              subst h1
              subst h2
              obtain ⟨a1, a2, a3, a4, a5, a6⟩ :=
                ih l1 start mid (depth + 1) lt l2 (by omega) (by omega) hL
              obtain ⟨b1, b2, b3, b4, b5, b6⟩ :=
                ih l2 (mid + 1) stop (depth + 1) rt l3 (by omega) (by omega) hR
              have hslice_eq : sliceM l1 start stop = sliceM l start stop :=
                sliceM_eq_of p1 (by omega) hb p2 p3
              have hsplit : sliceL l1 start stop =
                  sliceL l1 start mid ++ l1.getD mid 0 :: sliceL l1 (mid + 1) stop :=
                sliceL_split (by omega) (by omega) (by omega)
              have hright_slice : sliceL l2 (mid + 1) stop = sliceL l1 (mid + 1) stop :=
                sliceL_eq_of_pointwise a1 (by omega)
                  (fun p hp1 hp2 => a2 p (Or.inr (by omega)))
              refine ⟨by omega, ?_, ?_, ?_, ?_, fun _ => by simp⟩
              · intro p hp
                rw [b2 p (by omega), a2 p (by omega), p2 p (by omega)]
              · exact b3.trans (a3.trans p3)
              · rw [treeIdxs]
                rw [← hslice_eq, sliceM, hsplit]
                have htl : ((treeIdxs lt : List Nat) : Multiset Nat) =
                    (sliceL l1 start mid : Multiset Nat) := a4
                have htr : ((treeIdxs rt : List Nat) : Multiset Nat) =
                    (sliceL l1 (mid + 1) stop : Multiset Nat) := by
                  rw [b4, sliceM, hright_slice]
                simp only [← Multiset.cons_coe, ← Multiset.coe_add,
                  ← Multiset.singleton_add]
                rw [htl, htr]
                abel
              · refine ⟨Nat.pos_of_ne_zero hk0, rfl, ?_, ?_, a5, b5⟩
                · intro i hi
                  have hmem : i ∈ sliceM l1 start mid := by
                    rw [← a4]
                    exact Multiset.mem_coe.mpr hi
                  rw [sliceM, Multiset.mem_coe, mem_sliceL (by omega)] at hmem
                  obtain ⟨p0, hp01, hp02, hp03⟩ := hmem
                  rw [← hp03]
                  exact p4 p0 hp01 hp02
                · intro i hi
                  have hrs : sliceM l2 (mid + 1) stop = sliceM l1 (mid + 1) stop := by
                    rw [sliceM, sliceM, hright_slice]
                  have hmem : i ∈ sliceM l1 (mid + 1) stop := by
                    rw [← hrs, ← b4]
                    exact Multiset.mem_coe.mpr hi
                  rw [sliceM, Multiset.mem_coe, mem_sliceL (by omega)] at hmem
                  obtain ⟨p0, hp01, hp02, hp03⟩ := hmem
                  rw [← hp03]
                  exact p5 p0 (by omega) hp02

/-! ## Properties of the distance function -/

lemma distSqr_succ (k : Nat) (a b : Pt) :
    distSqr (k + 1) a b =
      distSqr k a b + (a.getD k 0 - b.getD k 0) * (a.getD k 0 - b.getD k 0) := by
  simp only [distSqr, List.range_succ, List.foldl_append, List.foldl_cons, List.foldl_nil]

lemma distSqr_nonneg (k : Nat) (a b : Pt) : 0 ≤ distSqr k a b := by
  induction k with
  | zero => simp [distSqr]
  | succ k ih =>
    rw [distSqr_succ]
    have := mul_self_nonneg (a.getD k 0 - b.getD k 0)
    linarith

lemma distSqr_term_le {ax : Nat} (a b : Pt) :
    ∀ k, ax < k →
    (a.getD ax 0 - b.getD ax 0) * (a.getD ax 0 - b.getD ax 0) ≤ distSqr k a b := by
  intro k
  induction k with
  | zero => omega
  | succ k ih =>
    intro h
    rw [distSqr_succ]
    rcases Nat.lt_or_ge ax k with hlt | hge
    · have h1 := mul_self_nonneg (a.getD k 0 - b.getD k 0)
      have h2 := ih hlt
      linarith
    · have hax : ax = k := by omega
      subst hax
      have := distSqr_nonneg ax a b
      linarith

/-! ## The strict-improvement scan -/

lemma upd_snd (pts : List Pt) (k : Nat) (q : Pt) (s : Int × WithTop ℚ) (idx : Nat) :
    (updBest pts k q s idx).2 = s.2 ⊓ qdist pts k q idx := by
  unfold updBest qdist
  by_cases h : ((distSqr k (pts.getD idx []) q : ℚ) : WithTop ℚ) < s.2
  · rw [if_pos h]
    exact (inf_eq_right.mpr (le_of_lt h)).symm
  · rw [if_neg h]
    exact (inf_eq_left.mpr (not_lt.mp h)).symm

lemma upd_cases (pts : List Pt) (k : Nat) (q : Pt) (s : Int × WithTop ℚ) (idx : Nat) :
    updBest pts k q s idx = s ∨
    ((updBest pts k q s idx).2 < s.2 ∧
      ∃ i ∈ [idx], updBest pts k q s idx = ((i : Int), qdist pts k q i)) := by
  unfold updBest qdist
  by_cases h : ((distSqr k (pts.getD idx []) q : ℚ) : WithTop ℚ) < s.2
  · rw [if_pos h]
    exact Or.inr ⟨h, idx, List.mem_singleton_self idx, rfl⟩
  · rw [if_neg h]
    exact Or.inl rfl

lemma infD_nil (pts : List Pt) (k : Nat) (q : Pt) : infD pts k q [] = ⊤ := by
  simp [infD]

lemma infD_cons (pts : List Pt) (k : Nat) (q : Pt) (i : Nat) (is : List Nat) :
    infD pts k q (i :: is) = qdist pts k q i ⊓ infD pts k q is := by
  simp only [infD, List.map_cons, ← Multiset.cons_coe]
  exact Multiset.inf_cons _ _

lemma infD_append (pts : List Pt) (k : Nat) (q : Pt) (is1 is2 : List Nat) :
    infD pts k q (is1 ++ is2) = infD pts k q is1 ⊓ infD pts k q is2 := by
  simp only [infD, List.map_append, ← Multiset.coe_add]
  exact Multiset.inf_add _ _

lemma foldl_upd_snd (pts : List Pt) (k : Nat) (q : Pt) :
    ∀ (is : List Nat) (s : Int × WithTop ℚ),
    (is.foldl (updBest pts k q) s).2 = s.2 ⊓ infD pts k q is := by
  intro is
  induction is with
  | nil => intro s; simp [infD_nil]
  | cons i is ih =>
    intro s
    rw [List.foldl_cons, ih, upd_snd, infD_cons, inf_assoc]

/-- Composing two strict-improvement stages: if each stage either leaves
the state untouched or strictly lowers the best distance to that of one
of its candidates, so does the composite. -/
lemma improve_trans (pts : List Pt) (k : Nat) (q : Pt)
    {s u r : Int × WithTop ℚ} {is1 is2 big : List Nat}
    (h1 : u = s ∨ (u.2 < s.2 ∧ ∃ i ∈ is1, u = ((i : Int), qdist pts k q i)))
    (h2 : r = u ∨ (r.2 < u.2 ∧ ∃ i ∈ is2, r = ((i : Int), qdist pts k q i)))
    (hs1 : ∀ i ∈ is1, i ∈ big) (hs2 : ∀ i ∈ is2, i ∈ big) :
    r = s ∨ (r.2 < s.2 ∧ ∃ i ∈ big, r = ((i : Int), qdist pts k q i)) := by
  rcases h2 with rfl | ⟨hlt2, i, hi, hr⟩
  · rcases h1 with rfl | ⟨hlt1, i, hi, hr⟩
    · exact Or.inl rfl
    · exact Or.inr ⟨hlt1, i, hs1 i hi, hr⟩
  · have hus : u.2 ≤ s.2 := by
      rcases h1 with rfl | ⟨hlt1, _⟩
      · exact le_refl _
      · exact le_of_lt hlt1
    exact Or.inr ⟨lt_of_lt_of_le hlt2 hus, i, hs2 i hi, hr⟩

lemma foldl_upd_cases (pts : List Pt) (k : Nat) (q : Pt) :
    ∀ (is : List Nat) (s : Int × WithTop ℚ),
    is.foldl (updBest pts k q) s = s ∨
    ((is.foldl (updBest pts k q) s).2 < s.2 ∧
      ∃ i ∈ is, is.foldl (updBest pts k q) s = ((i : Int), qdist pts k q i)) := by
  intro is
  induction is with
  | nil => intro s; exact Or.inl rfl
  | cons i is ih =>
    intro s
    rw [List.foldl_cons]
    exact improve_trans pts k q (upd_cases pts k q s i) (ih (updBest pts k q s i))
      (fun j hj => by simpa using Or.inl (List.mem_singleton.mp hj))
      (fun j hj => List.mem_cons_of_mem i hj)

/-! ## Correctness of the branch-and-bound search -/

lemma nearestSearch_cases (pts : List Pt) (k : Nat) (q : Pt) :
    ∀ (nd : Node) (s : Int × WithTop ℚ),
    nearestSearch pts k q nd s = s ∨
    ((nearestSearch pts k q nd s).2 < s.2 ∧
      ∃ i ∈ treeIdxs nd, nearestSearch pts k q nd s = ((i : Int), qdist pts k q i)) := by
  intro nd
  induction nd with
  | nil => intro s; exact Or.inl rfl
  | leaf li =>
    intro s
    simp only [nearestSearch, treeIdxs]
    exact foldl_upd_cases pts k q li s
  | node pi ax l r ihl ihr =>
    intro s
    have hfar : ∀ (child : Node)
        (hchild : ∀ v, nearestSearch pts k q child v = v ∨
          ((nearestSearch pts k q child v).2 < v.2 ∧
            ∃ i ∈ treeIdxs child,
              nearestSearch pts k q child v = ((i : Int), qdist pts k q i)))
        (u : Int × WithTop ℚ),
        (if (((q.getD ax 0 - keyOf pts ax pi) *
            (q.getD ax 0 - keyOf pts ax pi) : ℚ) : WithTop ℚ) < u.2 then
          nearestSearch pts k q child u else u) = u ∨
        ((if (((q.getD ax 0 - keyOf pts ax pi) *
            (q.getD ax 0 - keyOf pts ax pi) : ℚ) : WithTop ℚ) < u.2 then
          nearestSearch pts k q child u else u).2 < u.2 ∧
          ∃ i ∈ treeIdxs child,
            (if (((q.getD ax 0 - keyOf pts ax pi) *
                (q.getD ax 0 - keyOf pts ax pi) : ℚ) : WithTop ℚ) < u.2 then
              nearestSearch pts k q child u else u) = ((i : Int), qdist pts k q i)) := by
      intro child hchild u
      by_cases hc : (((q.getD ax 0 - keyOf pts ax pi) *
          (q.getD ax 0 - keyOf pts ax pi) : ℚ) : WithTop ℚ) < u.2
      · rw [if_pos hc]
        exact hchild u
      · rw [if_neg hc]
        exact Or.inl rfl
    have hmem_pi : ∀ i ∈ [pi], i ∈ treeIdxs (Node.node pi ax l r) := by
      intro i hi
      rw [List.mem_singleton.mp hi]
      exact List.mem_cons_self _ _
    have hmem_l : ∀ i ∈ treeIdxs l, i ∈ treeIdxs (Node.node pi ax l r) := by
      intro i hi
      exact List.mem_cons_of_mem _ (List.mem_append_left _ hi)
    have hmem_r : ∀ i ∈ treeIdxs r, i ∈ treeIdxs (Node.node pi ax l r) := by
      intro i hi
      exact List.mem_cons_of_mem _ (List.mem_append_right _ hi)
    simp only [nearestSearch]
    by_cases hd : q.getD ax 0 - keyOf pts ax pi < 0
    · rw [if_pos hd]
      exact improve_trans pts k q
        (improve_trans pts k q (upd_cases pts k q s pi)
          (ihl (updBest pts k q s pi)) hmem_pi hmem_l)
        (hfar r ihr (nearestSearch pts k q l (updBest pts k q s pi)))
        (fun i hi => hi) hmem_r
    · rw [if_neg hd]
      exact improve_trans pts k q
        (improve_trans pts k q (upd_cases pts k q s pi)
          (ihr (updBest pts k q s pi)) hmem_pi hmem_r)
        (hfar l ihl (nearestSearch pts k q r (updBest pts k q s pi)))
        (fun i hi => hi) hmem_l

lemma nearestSearch_snd (pts : List Pt) (k : Nat) (q : Pt) :
    ∀ (nd : Node) (depth : Nat) (s : Int × WithTop ℚ),
    WF pts k depth nd →
    (nearestSearch pts k q nd s).2 = s.2 ⊓ infD pts k q (treeIdxs nd) := by
  intro nd
  induction nd with
  | nil =>
    intro depth s _
    simp [nearestSearch, treeIdxs, infD_nil]
  | leaf li =>
    intro depth s _
    simp only [nearestSearch, treeIdxs]
    exact foldl_upd_snd pts k q li s
  | node pi ax l r ihl ihr =>
    intro depth s hwf
    obtain ⟨hk, hax, hsepl, hsepr, hwl, hwr⟩ := hwf
    have haxk : ax < k := by
      rw [hax]
      exact Nat.mod_lt depth hk
    have hinf_node : infD pts k q (treeIdxs (Node.node pi ax l r)) =
        qdist pts k q pi ⊓ (infD pts k q (treeIdxs l) ⊓ infD pts k q (treeIdxs r)) := by
      rw [treeIdxs, infD_cons, infD_append]
    -- distance from the query to any point on the far side of the splitting
    -- plane is at least the squared plane offset
    have hfar_bound_r : q.getD ax 0 - keyOf pts ax pi < 0 →
        ∀ x ∈ treeIdxs r,
        (((q.getD ax 0 - keyOf pts ax pi) * (q.getD ax 0 - keyOf pts ax pi) : ℚ) :
          WithTop ℚ) ≤ qdist pts k q x := by
      intro hd x hx
      have hkey : keyOf pts ax pi ≤ keyOf pts ax x := hsepr x hx
      have h1 : (0 : ℚ) ≤ -(q.getD ax 0 - keyOf pts ax pi) := by linarith
      have h2 : -(q.getD ax 0 - keyOf pts ax pi) ≤ keyOf pts ax x - q.getD ax 0 := by
        linarith
      have h3 : (q.getD ax 0 - keyOf pts ax pi) * (q.getD ax 0 - keyOf pts ax pi) ≤
          (keyOf pts ax x - q.getD ax 0) * (keyOf pts ax x - q.getD ax 0) := by
        calc (q.getD ax 0 - keyOf pts ax pi) * (q.getD ax 0 - keyOf pts ax pi)
            = (-(q.getD ax 0 - keyOf pts ax pi)) * (-(q.getD ax 0 - keyOf pts ax pi)) := by
              ring
          _ ≤ (keyOf pts ax x - q.getD ax 0) * (keyOf pts ax x - q.getD ax 0) :=
              mul_self_le_mul_self h1 h2
      have h4 : (keyOf pts ax x - q.getD ax 0) * (keyOf pts ax x - q.getD ax 0) ≤
          distSqr k (pts.getD x []) q := by
        have := distSqr_term_le (pts.getD x []) q k haxk
        simpa [keyOf] using this
      unfold qdist
      exact_mod_cast WithTop.coe_le_coe.mpr (le_trans h3 h4)
    have hfar_bound_l : ¬(q.getD ax 0 - keyOf pts ax pi < 0) →
        ∀ x ∈ treeIdxs l,
        (((q.getD ax 0 - keyOf pts ax pi) * (q.getD ax 0 - keyOf pts ax pi) : ℚ) :
          WithTop ℚ) ≤ qdist pts k q x := by
      intro hd x hx
      have hkey : keyOf pts ax x ≤ keyOf pts ax pi := hsepl x hx
      have h1 : (0 : ℚ) ≤ q.getD ax 0 - keyOf pts ax pi := by
        have := not_lt.mp hd
        linarith
      have h2 : q.getD ax 0 - keyOf pts ax pi ≤ q.getD ax 0 - keyOf pts ax x := by
        linarith
      have h3 : (q.getD ax 0 - keyOf pts ax pi) * (q.getD ax 0 - keyOf pts ax pi) ≤
          (keyOf pts ax x - q.getD ax 0) * (keyOf pts ax x - q.getD ax 0) := by
        calc (q.getD ax 0 - keyOf pts ax pi) * (q.getD ax 0 - keyOf pts ax pi)
            ≤ (q.getD ax 0 - keyOf pts ax x) * (q.getD ax 0 - keyOf pts ax x) :=
              mul_self_le_mul_self h1 h2
          _ = (keyOf pts ax x - q.getD ax 0) * (keyOf pts ax x - q.getD ax 0) := by
              ring
      have h4 : (keyOf pts ax x - q.getD ax 0) * (keyOf pts ax x - q.getD ax 0) ≤
          distSqr k (pts.getD x []) q := by
        have := distSqr_term_le (pts.getD x []) q k haxk
        simpa [keyOf] using this
      unfold qdist
      exact_mod_cast WithTop.coe_le_coe.mpr (le_trans h3 h4)
    -- infimum over the far subtree of the distances, bounded below by the
    -- squared plane offset, cannot beat a best distance below that offset
    have hinf_le : ∀ (is : List Nat) (c v : WithTop ℚ),
        (∀ x ∈ is, c ≤ qdist pts k q x) → ¬(c < v) → v ⊓ infD pts k q is = v := by
      intro is c v hbd hnv
      refine inf_eq_left.mpr ?_
      refine le_trans (not_lt.mp hnv) ?_
      refine Multiset.le_inf.mpr ?_
      intro b hb
      rw [Multiset.mem_coe, List.mem_map] at hb
      obtain ⟨x, hx, rfl⟩ := hb
      exact hbd x hx
    simp only [nearestSearch]
    by_cases hd : q.getD ax 0 - keyOf pts ax pi < 0
    · rw [if_pos hd]
      have hs2 : (nearestSearch pts k q l (updBest pts k q s pi)).2 =
          s.2 ⊓ qdist pts k q pi ⊓ infD pts k q (treeIdxs l) := by
        rw [ihl (depth + 1) (updBest pts k q s pi) hwl, upd_snd]
      by_cases hc : (((q.getD ax 0 - keyOf pts ax pi) *
          (q.getD ax 0 - keyOf pts ax pi) : ℚ) : WithTop ℚ) <
          (nearestSearch pts k q l (updBest pts k q s pi)).2
      · rw [if_pos hc]
        rw [ihr (depth + 1) _ hwr, hs2, hinf_node]
        simp only [inf_assoc]
      · rw [if_neg hc]
        have hprune := hinf_le (treeIdxs r) _ _ (hfar_bound_r hd) hc
        rw [hs2] at hprune
        rw [hinf_node, hs2, ← hprune]
        simp only [inf_assoc]
    · rw [if_neg hd]
      have hs2 : (nearestSearch pts k q r (updBest pts k q s pi)).2 =
          s.2 ⊓ qdist pts k q pi ⊓ infD pts k q (treeIdxs r) := by
        rw [ihr (depth + 1) (updBest pts k q s pi) hwr, upd_snd]
      by_cases hc : (((q.getD ax 0 - keyOf pts ax pi) *
          (q.getD ax 0 - keyOf pts ax pi) : ℚ) : WithTop ℚ) <
          (nearestSearch pts k q r (updBest pts k q s pi)).2
      · rw [if_pos hc]
        rw [ihl (depth + 1) _ hwl, hs2, hinf_node]
        -- reorder the two subtree infima
        rw [inf_assoc, inf_assoc, inf_comm (infD pts k q (treeIdxs l))]
      · rw [if_neg hc]
        have hprune := hinf_le (treeIdxs l) _ _ (hfar_bound_l hd) hc
        rw [hs2] at hprune
        rw [hinf_node, hs2, ← hprune]
        simp only [inf_assoc]
        rw [inf_comm (infD pts k q (treeIdxs r))]

/-! ## Construction-level facts -/

lemma buildTreeF_error_eq (pts : List Pt) (k ls : Nat) :
    ∀ (fuel : Nat) (l : List Nat) (start stop depth : Nat) (e : KDError),
    buildTreeF pts k ls fuel l start stop depth = .error e → e = .modByZero := by
  intro fuel
  induction fuel with
  | zero =>
    intro l start stop depth e he
    exact absurd he (by simp [buildTreeF])
  | succ fuel ih =>
    intro l start stop depth e he
    rw [buildTreeF_succ] at he
    by_cases h0 : stop - start = 0
    · rw [if_pos h0] at he
      exact absurd he (by simp)
    · rw [if_neg h0] at he
      by_cases hl : stop - start ≤ ls
      · rw [if_pos hl] at he
        exact absurd he (by simp)
      · rw [if_neg hl] at he
        by_cases hk : k = 0
        · rw [if_pos hk] at he
          injection he with h
          exact h.symm
        · rw [if_neg hk] at he
          rcases hL : buildTreeF pts k ls fuel
              (partitionIndices pts l start stop (depth % k)
                (start + (stop - start) / 2))
              start (start + (stop - start) / 2) (depth + 1) with eL | ⟨lt, l2⟩
          · rw [hL] at he
            dsimp only at he
            injection he with h
            rw [← h]
            exact ih _ _ _ _ _ hL
          · rw [hL] at he
            dsimp only at he
            rcases hR : buildTreeF pts k ls fuel l2 (start + (stop - start) / 2 + 1)
                stop (depth + 1) with eR | ⟨rt, l3⟩
            · rw [hR] at he
              dsimp only at he
              injection he with h
              rw [← h]
              exact ih _ _ _ _ _ hR
            · rw [hR] at he
              dsimp only at he
              exact absurd he (by simp)

lemma buildTreeF_ok_of_k_ne_zero (pts : List Pt) (k ls : Nat) (hk : k ≠ 0) :
    ∀ (fuel : Nat) (l : List Nat) (start stop depth : Nat),
    ∃ out, buildTreeF pts k ls fuel l start stop depth = .ok out := by
  intro fuel
  induction fuel with
  | zero => intro l start stop depth; exact ⟨(.nil, l), rfl⟩
  | succ fuel ih =>
    intro l start stop depth
    rw [buildTreeF_succ]
    by_cases h0 : stop - start = 0
    · rw [if_pos h0]
      exact ⟨_, rfl⟩
    · rw [if_neg h0]
      by_cases hl : stop - start ≤ ls
      · rw [if_pos hl]
        exact ⟨_, rfl⟩
      · rw [if_neg hl, if_neg hk]
        obtain ⟨⟨lt, l2⟩, hL⟩ := ih
          (partitionIndices pts l start stop (depth % k) (start + (stop - start) / 2))
          start (start + (stop - start) / 2) (depth + 1)
        rw [hL]
        dsimp only
        obtain ⟨⟨rt, l3⟩, hR⟩ := ih l2 (start + (stop - start) / 2 + 1) stop (depth + 1)
        rw [hR]
        dsimp only
        exact ⟨_, rfl⟩

lemma make_ok_spec {pts : List Pt} {ls : Nat} {t : KDTree}
    (h : KDTree.make pts ls = .ok t) :
    t.points = pts ∧ t.leafSize = ls ∧
    (pts = [] → t.k = 0 ∧ t.root = Node.nil) ∧
    (pts ≠ [] →
      t.k = (pts.headD []).length ∧
      (∀ i, i < pts.length → (pts.getD i []).length = t.k) ∧
      WF pts t.k 0 t.root ∧
      ((treeIdxs t.root : List Nat) : Multiset Nat) =
        ((List.range pts.length : List Nat) : Multiset Nat) ∧
      t.root ≠ Node.nil) := by
  by_cases hemp : pts.isEmpty
  · have hpts : pts = [] := List.isEmpty_iff.mp hemp
    rw [KDTree.make] at h
    simp only [hemp, if_true, Except.ok.injEq] at h
    subst h
    exact ⟨rfl, rfl, fun _ => ⟨rfl, rfl⟩, fun hne => absurd hpts hne⟩
  · have hemp' : pts.isEmpty = false := by simpa using hemp
    have hpts : pts ≠ [] := by
      intro hc
      rw [hc] at hemp'
      simp at hemp'
    have hn : 0 < pts.length := List.length_pos.mpr hpts
    rw [KDTree.make] at h
    simp only [hemp', Bool.false_eq_true, if_false] at h
    rcases hf : (List.range pts.length).find?
        (fun i => (pts.getD i []).length != (pts.headD []).length) with _ | i
    · rw [hf] at h
      rcases hB : buildTree pts (pts.headD []).length ls (List.range pts.length) 0
          pts.length 0 with e | ⟨root, lrest⟩
      · rw [hB] at h
        exact absurd h (by simp)
      · rw [hB] at h
        dsimp only at h
        rw [Except.ok.injEq] at h
        subst h
        rw [buildTree] at hB
        obtain ⟨b1, b2, b3, b4, b5, b6⟩ :=
          buildTreeF_spec pts (pts.headD []).length ls (pts.length - 0)
            (List.range pts.length) 0 pts.length 0 root lrest (by omega)
            (by simp) hB
        have hall : ∀ i, i < pts.length → (pts.getD i []).length = (pts.headD []).length := by
          intro i hi
          have := List.find?_eq_none.mp hf i (List.mem_range.mpr hi)
          simpa using this
        refine ⟨rfl, rfl, fun hc => absurd hc hpts,
          fun _ => ⟨rfl, hall, b5, ?_, b6 (by omega)⟩⟩
        rw [b4, sliceM]
        have hr : sliceL (List.range pts.length) 0 pts.length = List.range pts.length := by
          have h1 := sliceL_full (List.range pts.length)
          rwa [List.length_range] at h1
        rw [hr]
    · rw [hf] at h
      exact absurd h (by simp)

/-! ## Query-level facts -/

lemma nearest_root_nil {t : KDTree} (h : t.root = Node.nil) (q : Pt) :
    t.nearest q = .ok (-1) := by
  rw [KDTree.nearest, if_pos h]

lemma nearestDistSqr_root_nil {t : KDTree} (h : t.root = Node.nil) (q : Pt) :
    t.nearestDistSqr q = .ok GREAT := by
  rw [KDTree.nearestDistSqr, if_pos h]

lemma nearest_run {t : KDTree} (hroot : t.root ≠ Node.nil) {q : Pt}
    (hq : q.length = t.k) :
    t.nearest q = .ok (nearestSearch t.points t.k q t.root (-1, GREAT)).1 := by
  rw [KDTree.nearest, if_neg hroot, if_neg (by omega)]

lemma nearestDistSqr_run {t : KDTree} (hroot : t.root ≠ Node.nil) {q : Pt}
    (hq : q.length = t.k) :
    t.nearestDistSqr q = .ok (nearestSearch t.points t.k q t.root (-1, GREAT)).2 := by
  rw [KDTree.nearestDistSqr, if_neg hroot, if_neg (by omega)]

lemma nearest_dim_error {t : KDTree} (hroot : t.root ≠ Node.nil) {q : Pt}
    (hq : q.length ≠ t.k) :
    t.nearest q = .error .dimensionMismatch := by
  rw [KDTree.nearest, if_neg hroot, if_pos hq]

lemma nearestDistSqr_dim_error {t : KDTree} (hroot : t.root ≠ Node.nil) {q : Pt}
    (hq : q.length ≠ t.k) :
    t.nearestDistSqr q = .error .dimensionMismatch := by
  rw [KDTree.nearestDistSqr, if_neg hroot, if_pos hq]

lemma infD_congr (pts : List Pt) (k : Nat) (q : Pt) {is1 is2 : List Nat}
    (h : (is1 : Multiset Nat) = (is2 : Multiset Nat)) :
    infD pts k q is1 = infD pts k q is2 := by
  unfold infD
  congr 1
  calc ((is1.map (qdist pts k q) : List (WithTop ℚ)) : Multiset (WithTop ℚ))
      = Multiset.map (qdist pts k q) (is1 : Multiset Nat) := by simp
    _ = Multiset.map (qdist pts k q) (is2 : Multiset Nat) := by rw [h]
    _ = ((is2.map (qdist pts k q) : List (WithTop ℚ)) : Multiset (WithTop ℚ)) := by simp

lemma brute_eq_foldl (pts : List Pt) (q : Pt) :
    bruteNearest pts q =
      (List.range pts.length).foldl (updBest pts q.length q) (-1, GREAT) := rfl

lemma brute_snd (pts : List Pt) (q : Pt) :
    (bruteNearest pts q).2 = GREAT ⊓ infD pts q.length q (List.range pts.length) := by
  rw [brute_eq_foldl, foldl_upd_snd]

/-- The central correctness fact: on a successfully built tree and a
query of the right dimension, `nearestDistSqr` returns exactly what the
brute-force scan returns. -/
lemma nearestDistSqr_eq_brute {pts : List Pt} {ls : Nat} {t : KDTree} {q : Pt}
    (h : KDTree.make pts ls = .ok t) (hq : q.length = t.k) :
    t.nearestDistSqr q = .ok (bruteNearest pts q).2 := by
  obtain ⟨hp, hls, hempcase, hnecase⟩ := make_ok_spec h
  by_cases hpts : pts = []
  · obtain ⟨hk0, hroot⟩ := hempcase hpts
    rw [nearestDistSqr_root_nil hroot]
    subst hpts
    rfl
  · obtain ⟨hk, hall, hwf, hms, hroot⟩ := hnecase hpts
    rw [nearestDistSqr_run hroot hq, hp]
    congr 1
    rw [nearestSearch_snd pts t.k q t.root 0 (-1, GREAT) hwf]
    rw [brute_snd, hq, infD_congr pts t.k q hms]

/-- On a successfully built non-empty tree the search returns a valid
index whose distance is the returned distance. -/
lemma nearest_found {pts : List Pt} {ls : Nat} {t : KDTree} {q : Pt}
    (h : KDTree.make pts ls = .ok t) (hq : q.length = t.k) (hne : pts ≠ []) :
    ∃ j : Nat, j < pts.length ∧ t.nearest q = .ok ((j : Nat) : Int) ∧
      t.nearestDistSqr q = .ok (qdist pts t.k q j) := by
  obtain ⟨hp, hls, hempcase, hnecase⟩ := make_ok_spec h
  obtain ⟨hk, hall, hwf, hms, hroot⟩ := hnecase hne
  have hrun1 := nearest_run hroot hq
  have hrun2 := nearestDistSqr_run hroot hq
  rw [hp] at hrun1 hrun2
  rcases nearestSearch_cases pts t.k q t.root (-1, GREAT) with heq | ⟨hlt, i, hi, heq⟩
  · exfalso
    have h2 := nearestSearch_snd pts t.k q t.root 0 (-1, GREAT) hwf
    rw [heq] at h2
    have h0mem : (0 : Nat) ∈ List.range pts.length :=
      List.mem_range.mpr (List.length_pos.mpr hne)
    have hle : infD pts t.k q (List.range pts.length) ≤ qdist pts t.k q 0 := by
      refine Multiset.inf_le ?_
      rw [Multiset.mem_coe]
      exact List.mem_map_of_mem _ h0mem
    have htop : infD pts t.k q (List.range pts.length) < ⊤ := by
      refine lt_of_le_of_lt hle ?_
      unfold qdist
      exact WithTop.coe_lt_top _
    rw [infD_congr pts t.k q hms] at h2
    have : (⊤ : WithTop ℚ) = infD pts t.k q (List.range pts.length) := by
      simpa [GREAT] using h2
    rw [← this] at htop
    exact lt_irrefl _ htop
  · have himem : i ∈ List.range pts.length := by
      have : i ∈ ((List.range pts.length : List Nat) : Multiset Nat) := by
        rw [← hms, Multiset.mem_coe]
        exact hi
      rw [Multiset.mem_coe, List.mem_range] at this
      exact List.mem_range.mpr this
    refine ⟨i, List.mem_range.mp himem, ?_, ?_⟩
    · rw [hrun1, heq]
    · rw [hrun2, heq]

/-! ## Facts used by the degenerate-duplicates scenario -/

lemma distSqr_self_zero (k : Nat) (a : Pt) : distSqr k a a = 0 := by
  induction k with
  | zero => simp [distSqr]
  | succ k ih => rw [distSqr_succ, ih]; ring

lemma make_ok_of_consistent (pts : List Pt) (ls : Nat) (hne : pts ≠ [])
    (hk : (pts.headD []).length ≠ 0)
    (hall : ∀ i, i < pts.length → (pts.getD i []).length = (pts.headD []).length) :
    ∃ t, KDTree.make pts ls = .ok t := by
  have hemp' : pts.isEmpty = false := by simp [List.isEmpty_iff, hne]
  rw [KDTree.make]
  simp only [hemp', Bool.false_eq_true, if_false]
  have hf : (List.range pts.length).find?
      (fun i => (pts.getD i []).length != (pts.headD []).length) = none := by
    rw [List.find?_eq_none]
    intro i hi
    simp only [bne_iff_ne, ne_eq, Decidable.not_not]
    exact hall i (List.mem_range.mp hi)
  rw [hf]
  obtain ⟨⟨root, lrest⟩, hB⟩ := buildTreeF_ok_of_k_ne_zero pts (pts.headD []).length ls hk
    (pts.length - 0) (List.range pts.length) 0 pts.length 0
  rw [buildTree, hB]
  exact ⟨_, rfl⟩

lemma dup_nearestDistSqr (ls : Nat) :
    ∃ t, KDTree.make (List.replicate 10000 [(1:ℚ)/2, 1/2, 1/2]) ls = .ok t ∧
      t.nearestDistSqr [(1:ℚ)/2, 1/2, 1/2] = .ok ((0:ℚ) : WithTop ℚ) := by
  set p : Pt := [(1:ℚ)/2, 1/2, 1/2] with hp
  set pts : List Pt := List.replicate 10000 p with hpts
  have hcons : pts = p :: List.replicate 9999 p := by
    rw [hpts, show (10000:Nat) = 9999 + 1 from rfl, List.replicate_succ]
  have hne : pts ≠ [] := by
    intro hc
    rw [hcons] at hc
    exact List.cons_ne_nil _ _ hc
  have hhead : pts.headD [] = p := by rw [hcons]; rfl
  have hlen : pts.length = 10000 := List.length_replicate ..
  have hget : ∀ i, i < 10000 → pts.getD i [] = p := by
    intro i hi
    have hi' : i < pts.length := by omega
    rw [List.getD_eq_getElem _ [] hi']
    have hi2 : i < (List.replicate 10000 p).length := hi'
    show (List.replicate 10000 p)[i] = p
    exact List.getElem_replicate ..
  have hall : ∀ i, i < pts.length → (pts.getD i []).length = (pts.headD []).length := by
    intro i hi
    rw [hget i (by omega), hhead]
  have hk3 : (pts.headD []).length = 3 := by rw [hhead, hp]; rfl
  obtain ⟨t, ht⟩ := make_ok_of_consistent pts ls hne (by rw [hk3]; omega) hall
  obtain ⟨hpp, hls, hemp, hnecase⟩ := make_ok_spec ht
  obtain ⟨hkk, _, _, _, _⟩ := hnecase hne
  have htk : t.k = 3 := by rw [hkk, hk3]
  have hqlen : p.length = t.k := by rw [htk, hp]; rfl
  have hmain := nearestDistSqr_eq_brute ht hqlen
  have hq0 : ∀ i ∈ List.range pts.length, qdist pts p.length p i = ((0:ℚ) : WithTop ℚ) := by
    intro i hi
    rw [List.mem_range] at hi
    unfold qdist
    rw [hget i (by omega), distSqr_self_zero]
  have hbrute : (bruteNearest pts p).2 = ((0:ℚ) : WithTop ℚ) := by
    rw [brute_snd]
    have hinf : infD pts p.length p (List.range pts.length) = ((0:ℚ) : WithTop ℚ) := by
      refine le_antisymm ?_ ?_
      · refine Multiset.inf_le ?_
        rw [Multiset.mem_coe, List.mem_map]
        have h0 : (0:Nat) ∈ List.range pts.length := List.mem_range.mpr (by omega)
        exact ⟨0, h0, hq0 0 h0⟩
      · refine Multiset.le_inf.mpr ?_
        intro b hb
        rw [Multiset.mem_coe, List.mem_map] at hb
        obtain ⟨i, hi, rfl⟩ := hb
        rw [hq0 i hi]
    rw [hinf, GREAT, top_inf_eq]
  exact ⟨t, ht, by rw [hmain, hbrute]⟩

/-! ## Error characterisation of construction -/

lemma make_dimError_iff (pts : List Pt) (ls : Nat) :
    KDTree.make pts ls = .error .dimensionMismatch ↔
      ∃ i, i < pts.length ∧ (pts.getD i []).length ≠ (pts.headD []).length := by
  by_cases hemp : pts.isEmpty
  · have hpts : pts = [] := List.isEmpty_iff.mp hemp
    subst hpts
    constructor
    · intro h
      exact absurd h (by simp [KDTree.make])
    · rintro ⟨i, hi, _⟩
      exact absurd hi (by simp)
  · have hemp' : pts.isEmpty = false := by simpa using hemp
    rw [KDTree.make]
    simp only [hemp', Bool.false_eq_true, if_false]
    rcases hf : (List.range pts.length).find?
        (fun i => (pts.getD i []).length != (pts.headD []).length) with _ | i
    · constructor
      · intro h
        dsimp only at h
        exfalso
        rcases hB : buildTree pts (pts.headD []).length ls (List.range pts.length) 0
            pts.length 0 with e | ⟨root, lrest⟩
        · rw [hB] at h
          dsimp only at h
          injection h with h'
          rw [buildTree] at hB
          have hmz := buildTreeF_error_eq pts _ ls _ _ _ _ _ _ hB
          rw [hmz] at h'
          exact absurd h' (by simp)
        · rw [hB] at h
          dsimp only at h
          exact absurd h (by simp)
      · rintro ⟨i, hi, hne⟩
        exfalso
        have := List.find?_eq_none.mp hf i (List.mem_range.mpr hi)
        simp only [bne_iff_ne, ne_eq, Decidable.not_not] at this
        exact hne this
    · constructor
      · intro _
        have hmem := List.mem_of_find?_eq_some hf
        have hpred := List.find?_some hf
        simp only [bne_iff_ne, ne_eq] at hpred
        exact ⟨i, List.mem_range.mp hmem, hpred⟩
      · intro _
        rfl

/-! ## Reachability of the modulo-by-zero fault -/

lemma modZero_reachable (ls n : Nat) (h : ls < n) :
    KDTree.make (List.replicate n ([] : Pt)) ls = .error .modByZero ∧
    buildTree (List.replicate n ([] : Pt)) 0 ls (List.range n) 0 n 0 =
      .error .modByZero := by
  obtain ⟨m, rfl⟩ : ∃ m, n = m + 1 := ⟨n - 1, by omega⟩
  set pts : List Pt := List.replicate (m + 1) [] with hpts
  have hbt : buildTree pts 0 ls (List.range (m + 1)) 0 (m + 1) 0 =
      .error .modByZero := by
    rw [buildTree, Nat.sub_zero, buildTreeF_succ]
    rw [if_neg (by omega : ¬(m + 1 - 0 = 0)), if_neg (by omega : ¬(m + 1 - 0 ≤ ls)),
      if_pos rfl]
  refine ⟨?_, hbt⟩
  have hcons : pts = ([] : Pt) :: List.replicate m [] := List.replicate_succ ..
  have hemp' : pts.isEmpty = false := by rw [hcons]; rfl
  have hhead : pts.headD [] = [] := by rw [hcons]; rfl
  have hlen : pts.length = m + 1 := List.length_replicate ..
  rw [KDTree.make]
  simp only [hemp', Bool.false_eq_true, if_false]
  have hf : (List.range pts.length).find?
      (fun i => (pts.getD i []).length != (pts.headD []).length) = none := by
    rw [List.find?_eq_none]
    intro i hi
    have hi' : i < pts.length := List.mem_range.mp hi
    have hgi : pts.getD i [] = [] := by
      rw [List.getD_eq_getElem _ [] hi']
      have hi2 : i < (List.replicate (m + 1) ([] : Pt)).length := hi'
      show (List.replicate (m + 1) ([] : Pt))[i] = []
      exact List.getElem_replicate ..
    simp only [bne_iff_ne, ne_eq, Decidable.not_not]
    rw [hgi, hhead]
  rw [hf]
  have hk0 : (pts.headD []).length = 0 := by rw [hhead]; rfl
  rw [hk0, hlen, hbt]

/-- `partitionIndices` places, at position `kk`, the element whose key is
the rank-`(kk - start)` order statistic of the keys of the original
slice `[start, stop)`. -/
lemma partitionIndices_orderstat (pts : List Pt) (indices : List Nat)
    (start stop axis kk : Nat) (h1 : start < stop) (h2 : start ≤ kk)
    (h3 : kk < stop) (h4 : stop ≤ indices.length) :
    (((sliceL indices start stop).map (keyOf pts axis)).insertionSort (· ≤ ·)).getD
        (kk - start) 0 =
      keyOf pts axis ((partitionIndices pts indices start stop axis kk).getD kk 0) := by
  obtain ⟨p1, p2, p3, p4, p5⟩ :=
    partitionIndices_spec pts indices start stop axis kk h1 h2 h3 h4
  set r := partitionIndices pts indices start stop axis kk with hrdef
  have hb' : stop ≤ r.length := by omega
  set ks := (sliceL r start stop).map (keyOf pts axis) with hksdef
  have hkslen : ks.length = stop - start := by
    rw [hksdef, List.length_map, length_sliceL hb']
  have hksget : ∀ i, i < stop - start →
      ks.getD i 0 = keyOf pts axis (r.getD (start + i) 0) := by
    intro i hi
    have hi' : i < ks.length := by omega
    rw [List.getD_eq_getElem _ 0 hi']
    simp only [hksdef, List.getElem_map]
    congr 1
    exact getElem_sliceL hb' (by rw [length_sliceL hb']; omega)
  have hstartkk : start + (kk - start) = kk := by omega
  have hsorted := sorted_getD_of_partitioned ks (kk - start) (by omega)
    (fun i hi => by
      rw [hksget i (by omega), hksget (kk - start) (by omega), hstartkk]
      exact p4 (start + i) (by omega) (by omega))
    (fun i hi1 hi2 => by
      rw [hkslen] at hi2
      rw [hksget i (by omega), hksget (kk - start) (by omega), hstartkk]
      exact p5 (start + i) (by omega) (by omega))
  have hperm : ((sliceL indices start stop).map (keyOf pts axis)).Perm ks := by
    rw [hksdef]
    refine List.Perm.map _ ?_
    rw [← Multiset.coe_eq_coe]
    have hsl := sliceM_eq_of p1 (by omega) h4 p2 p3
    rw [sliceM, sliceM] at hsl
    exact hsl.symm
  have hsame : ((sliceL indices start stop).map (keyOf pts axis)).insertionSort (· ≤ ·)
      = ks.insertionSort (· ≤ ·) := by
    refine List.eq_of_perm_of_sorted ?_ (List.sorted_insertionSort _ _)
      (List.sorted_insertionSort _ _)
    exact (List.perm_insertionSort _ _).trans
      (hperm.trans (List.perm_insertionSort _ _).symm)
  rw [hsame, hsorted, hksget (kk - start) (by omega), hstartkk]

/-- A concrete two-point one-dimensional index used by several claim
witnesses: the tree that `KDTree.make [[0], [2]] 1` actually builds. -/
def T1 : KDTree :=
  { points := [[0], [2]], k := 1, leafSize := 1,
    root := Node.node 1 0 (Node.leaf [0]) Node.nil }

lemma T1_make : KDTree.make [[0], [2]] 1 = .ok T1 := rfl

/-! # Claim theorems -/

/-- C1: for every point set and every query of length `k` (on a
successfully constructed index), `nearestDistSqr(q)` equals the minimum
over the points of the squared Euclidean distance to `q` exactly as the
exhaustive scan `bruteNearest` computes it; the second conjunct spells
out that the scan's result is the infimum of all point distances
(capped by the initial sentinel `GREAT`). -/
theorem C1_nearestDistSqr_matches_exhaustive_scan
    (pts : List Pt) (ls : Nat) (t : KDTree) (q : Pt)
    (h : KDTree.make pts ls = .ok t) (hq : q.length = t.k) :
    t.nearestDistSqr q = .ok (bruteNearest pts q).2 ∧
    (bruteNearest pts q).2 =
      GREAT ⊓ (((List.range pts.length).map
        (fun i => ((distSqr q.length (pts.getD i []) q : ℚ) : WithTop ℚ)) :
          List (WithTop ℚ)) : Multiset (WithTop ℚ)).inf :=
  ⟨nearestDistSqr_eq_brute h hq, brute_snd pts q⟩

/-- C1 witness: a concrete two-point one-dimensional index. -/
theorem C1_witness :
    T1.nearestDistSqr [1] = .ok (bruteNearest [[0], [2]] [1]).2 ∧
    (bruteNearest [[0], [2]] [1]).2 =
      GREAT ⊓ (((List.range ([[0], [2]] : List Pt).length).map
        (fun i => ((distSqr ([1] : Pt).length (([[0], [2]] : List Pt).getD i []) [1] : ℚ) :
          WithTop ℚ)) : List (WithTop ℚ)) : Multiset (WithTop ℚ)).inf :=
  C1_nearestDistSqr_matches_exhaustive_scan [[0], [2]] 1 T1 [1] T1_make rfl

/-- C2 counterexample: for the empty point set (a legal input, with
`k = 0` and the empty query of matching length) `nearest` returns the
sentinel `-1`, which references no point at all — so the claim, as
stated for every point set, fails on the empty one. -/
theorem C2_counterexample_empty :
    KDTree.make ([] : List Pt) 1 =
      .ok { points := [], k := 0, leafSize := 1, root := Node.nil } ∧
    ([] : Pt).length =
      KDTree.k { points := [], k := 0, leafSize := 1, root := Node.nil } ∧
    KDTree.nearest { points := [], k := 0, leafSize := 1, root := Node.nil } [] =
      .ok (-1) ∧
    ¬∃ j : Nat, j < ([] : List Pt).length ∧
      KDTree.nearest { points := [], k := 0, leafSize := 1, root := Node.nil } [] =
        .ok ((j : Nat) : Int) := by
  refine ⟨rfl, rfl, rfl, ?_⟩
  rintro ⟨j, hj, _⟩
  simp at hj

/-- C2 (amended to non-empty point sets): the index returned by
`nearest(q)` references a point whose squared distance to `q` is exactly
the value returned by `nearestDistSqr(q)`, and both entry points are
projections of one and the same full traversal. -/
theorem C2_index_references_distance
    (pts : List Pt) (ls : Nat) (t : KDTree) (q : Pt)
    (h : KDTree.make pts ls = .ok t) (hq : q.length = t.k) (hne : pts ≠ []) :
    (∃ j : Nat, j < pts.length ∧ t.nearest q = .ok ((j : Nat) : Int) ∧
      t.nearestDistSqr q =
        .ok ((distSqr t.k (pts.getD j []) q : ℚ) : WithTop ℚ)) ∧
    t.nearest q = .ok (nearestSearch pts t.k q t.root (-1, GREAT)).1 ∧
    t.nearestDistSqr q = .ok (nearestSearch pts t.k q t.root (-1, GREAT)).2 := by
  obtain ⟨j, hj, hn, hd⟩ := nearest_found h hq hne
  obtain ⟨hp, _, _, hnecase⟩ := make_ok_spec h
  obtain ⟨_, _, _, _, hroot⟩ := hnecase hne
  refine ⟨⟨j, hj, hn, hd⟩, ?_, ?_⟩
  · rw [nearest_run hroot hq, hp]
  · rw [nearestDistSqr_run hroot hq, hp]

/-- C2 witness: the two-point index again. -/
theorem C2_index_references_distance_witness :
    (∃ j : Nat, j < ([[0], [2]] : List Pt).length ∧
      T1.nearest [1] = .ok ((j : Nat) : Int) ∧
      T1.nearestDistSqr [1] =
        .ok ((distSqr T1.k (([[0], [2]] : List Pt).getD j []) [1] : ℚ) : WithTop ℚ)) ∧
    T1.nearest [1] = .ok (nearestSearch [[0], [2]] T1.k [1] T1.root (-1, GREAT)).1 ∧
    T1.nearestDistSqr [1] =
      .ok (nearestSearch [[0], [2]] T1.k [1] T1.root (-1, GREAT)).2 :=
  C2_index_references_distance [[0], [2]] 1 T1 [1] T1_make rfl (by decide)

/-- C3: `partitionIndices` on a sub-range `[start, stop)` with target
rank `kk`: positions outside the range are unchanged, the whole array
remains a permutation of its initial contents, every in-range position
below `kk` holds an axis-key ≤ the key at `kk`, every in-range position
above `kk` holds an axis-key ≥ it, and the key at `kk` is the true
order statistic of the range's keys at rank `kk - start`. -/
theorem C3_partition_selects_order_statistic
    (pts : List Pt) (indices : List Nat) (start stop axis kk : Nat)
    (h1 : start < stop) (h2 : start ≤ kk) (h3 : kk < stop)
    (h4 : stop ≤ indices.length) :
    (∀ p, p < start ∨ stop ≤ p →
      (partitionIndices pts indices start stop axis kk).getD p 0 =
        indices.getD p 0) ∧
    ((partitionIndices pts indices start stop axis kk : List Nat) : Multiset Nat) =
      (indices : Multiset Nat) ∧
    (∀ p, start ≤ p → p < kk →
      keyOf pts axis ((partitionIndices pts indices start stop axis kk).getD p 0) ≤
        keyOf pts axis ((partitionIndices pts indices start stop axis kk).getD kk 0)) ∧
    (∀ p, kk < p → p < stop →
      keyOf pts axis ((partitionIndices pts indices start stop axis kk).getD kk 0) ≤
        keyOf pts axis ((partitionIndices pts indices start stop axis kk).getD p 0)) ∧
    (((sliceL indices start stop).map (keyOf pts axis)).insertionSort (· ≤ ·)).getD
        (kk - start) 0 =
      keyOf pts axis ((partitionIndices pts indices start stop axis kk).getD kk 0) := by
  obtain ⟨p1, p2, p3, p4, p5⟩ :=
    partitionIndices_spec pts indices start stop axis kk h1 h2 h3 h4
  exact ⟨p2, p3, p4, p5,
    partitionIndices_orderstat pts indices start stop axis kk h1 h2 h3 h4⟩

/-- C3 witness: a concrete three-element range. -/
theorem C3_witness :
    (∀ p, p < 0 ∨ 3 ≤ p →
      (partitionIndices [[3], [1], [2]] [0, 1, 2] 0 3 0 1).getD p 0 =
        ([0, 1, 2] : List Nat).getD p 0) ∧
    ((partitionIndices [[3], [1], [2]] [0, 1, 2] 0 3 0 1 : List Nat) : Multiset Nat) =
      (([0, 1, 2] : List Nat) : Multiset Nat) ∧
    (∀ p, 0 ≤ p → p < 1 →
      keyOf [[3], [1], [2]] 0 ((partitionIndices [[3], [1], [2]] [0, 1, 2] 0 3 0 1).getD p 0) ≤
        keyOf [[3], [1], [2]] 0 ((partitionIndices [[3], [1], [2]] [0, 1, 2] 0 3 0 1).getD 1 0)) ∧
    (∀ p, 1 < p → p < 3 →
      keyOf [[3], [1], [2]] 0 ((partitionIndices [[3], [1], [2]] [0, 1, 2] 0 3 0 1).getD 1 0) ≤
        keyOf [[3], [1], [2]] 0 ((partitionIndices [[3], [1], [2]] [0, 1, 2] 0 3 0 1).getD p 0)) ∧
    (((sliceL [0, 1, 2] 0 3).map (keyOf [[3], [1], [2]] 0)).insertionSort (· ≤ ·)).getD
        (1 - 0) 0 =
      keyOf [[3], [1], [2]] 0 ((partitionIndices [[3], [1], [2]] [0, 1, 2] 0 3 0 1).getD 1 0) :=
  C3_partition_selects_order_statistic [[3], [1], [2]] [0, 1, 2] 0 3 0 1
    (by decide) (by decide) (by decide) (by decide)

/-- C4: every tree produced by construction satisfies the structural
invariant `WF` — each internal node created at depth `d` carries axis
`d % k` (with `k > 0`), all points reachable in its left subtree have
axis-value ≤ the split point's, all in its right subtree have axis-value
≥ it — and the indices stored in the whole tree are exactly the original
point indices `0, …, n-1`, each exactly once. -/
theorem C4_construction_invariants
    (pts : List Pt) (ls : Nat) (t : KDTree) (h : KDTree.make pts ls = .ok t) :
    WF pts t.k 0 t.root ∧
    ((treeIdxs t.root : List Nat) : Multiset Nat) =
      ((List.range pts.length : List Nat) : Multiset Nat) := by
  obtain ⟨hp, hls, hempcase, hnecase⟩ := make_ok_spec h
  by_cases hpts : pts = []
  · obtain ⟨hk0, hroot⟩ := hempcase hpts
    subst hpts
    rw [hroot]
    exact ⟨trivial, rfl⟩
  · obtain ⟨hk, hall, hwf, hms, hroot⟩ := hnecase hpts
    exact ⟨hwf, hms⟩

/-- C4 witness: the invariant on the concrete two-point index. -/
theorem C4_witness :
    WF [[0], [2]] T1.k 0 T1.root ∧
    ((treeIdxs T1.root : List Nat) : Multiset Nat) =
      ((List.range ([[0], [2]] : List Pt).length : List Nat) : Multiset Nat) :=
  C4_construction_invariants [[0], [2]] 1 T1 T1_make

/-- C5: termination of `partitionIndices`.  (i) Each outer iteration
returns a pivot position inside the active range, so the recursion on
`[left, storeIdx-1]` or `[storeIdx+1, right]` shrinks the range by at
least one element; (ii) consequently the loop stabilises after at most
`right - left + 1` iterations — any larger fuel computes the same
result; (iii) consequently construction on 10,000 identical points
terminates successfully and a query at that point returns squared
distance `0`. -/
theorem C5_partition_terminates :
    (∀ (pts : List Pt) (axis : Nat) (l : List Nat) (left right : Nat),
      left ≤ right →
      left ≤ (partitionStep pts axis l left right).2 ∧
      (partitionStep pts axis l left right).2 ≤ right) ∧
    (∀ (pts : List Pt) (axis fuel : Nat) (l : List Nat) (left right kk : Nat),
      right - left < fuel →
      partitionLoop pts axis fuel l left right kk =
        partitionLoop pts axis (right - left + 1) l left right kk) ∧
    (∀ ls : Nat, ∃ t : KDTree,
      KDTree.make (List.replicate 10000 [(1:ℚ)/2, 1/2, 1/2]) ls = .ok t ∧
      t.nearestDistSqr [(1:ℚ)/2, 1/2, 1/2] = .ok ((0 : ℚ) : WithTop ℚ)) :=
  ⟨fun pts axis l left right h => partitionStep_bounds pts axis l left right h,
   fun pts axis fuel l left right kk h => partitionLoop_fuel_irrel pts axis fuel l left right kk h,
   fun ls => dup_nearestDistSqr ls⟩

/-- C5 witness: the bounds and the fuel stabilisation at a concrete
instance. -/
theorem C5_witness :
    (0 ≤ (partitionStep [[1], [0]] 0 [0, 1] 0 1).2 ∧
      (partitionStep [[1], [0]] 0 [0, 1] 0 1).2 ≤ 1) ∧
    partitionLoop [[1], [0]] 0 5 [0, 1] 0 1 1 =
      partitionLoop [[1], [0]] 0 (1 - 0 + 1) [0, 1] 0 1 1 :=
  ⟨(C5_partition_terminates.1 [[1], [0]] 0 [0, 1] 0 1 (by decide)).imp
      (fun h => Nat.zero_le _) (fun h => h),
   C5_partition_terminates.2.1 [[1], [0]] 0 5 [0, 1] 0 1 1 (by decide)⟩

/-- C6 counterexample: on the empty index (`k = 0`), a query of length
`1 ≠ k` does NOT raise `DimensionMismatch` — both entry points return
their sentinels before the dimension check — so "raised exactly when
(b) a query vector's length differs from the index's `k`" fails as an
"exactly when". -/
theorem C6_counterexample_empty_query :
    KDTree.make ([] : List Pt) 1 =
      .ok { points := [], k := 0, leafSize := 1, root := Node.nil } ∧
    ([(0 : ℚ)] : Pt).length ≠
      KDTree.k { points := [], k := 0, leafSize := 1, root := Node.nil } ∧
    KDTree.nearest { points := [], k := 0, leafSize := 1, root := Node.nil }
      [(0 : ℚ)] = .ok (-1) ∧
    KDTree.nearestDistSqr { points := [], k := 0, leafSize := 1, root := Node.nil }
      [(0 : ℚ)] = .ok GREAT :=
  ⟨rfl, by decide, rfl, rfl⟩

/-- C6 (amended): `DimensionMismatch` is raised exactly when (a) during
construction some point's length differs from the first point's length
(and then no tree is produced — the result is the error, not an index),
or (b) a query vector's length differs from the index's `k` AND the
index is non-empty (an empty index returns its sentinel before the
dimension check); no other condition raises it. -/
theorem C6_dimension_mismatch_exactly (pts : List Pt) (ls : Nat) :
    (KDTree.make pts ls = .error .dimensionMismatch ↔
      ∃ i, i < pts.length ∧ (pts.getD i []).length ≠ (pts.headD []).length) ∧
    (∀ (t : KDTree) (q : Pt), KDTree.make pts ls = .ok t →
      (t.nearest q = .error .dimensionMismatch ↔ q.length ≠ t.k ∧ pts ≠ []) ∧
      (t.nearestDistSqr q = .error .dimensionMismatch ↔ q.length ≠ t.k ∧ pts ≠ [])) := by
  refine ⟨make_dimError_iff pts ls, ?_⟩
  intro t q hok
  obtain ⟨hp, hls, hempcase, hnecase⟩ := make_ok_spec hok
  by_cases hpts : pts = []
  · obtain ⟨hk0, hroot⟩ := hempcase hpts
    rw [nearest_root_nil hroot, nearestDistSqr_root_nil hroot]
    constructor
    · constructor
      · intro hc
        exact absurd hc (by simp)
      · rintro ⟨_, hne⟩
        exact absurd hpts hne
    · constructor
      · intro hc
        exact absurd hc (by simp)
      · rintro ⟨_, hne⟩
        exact absurd hpts hne
  · obtain ⟨_, _, _, _, hroot⟩ := hnecase hpts
    by_cases hq : q.length = t.k
    · rw [nearest_run hroot hq, nearestDistSqr_run hroot hq]
      constructor
      · constructor
        · intro hc
          exact absurd hc (by simp)
        · rintro ⟨hne, _⟩
          exact absurd hq hne
      · constructor
        · intro hc
          exact absurd hc (by simp)
        · rintro ⟨hne, _⟩
          exact absurd hq hne
    · rw [nearest_dim_error hroot hq, nearestDistSqr_dim_error hroot hq]
      constructor
      · exact ⟨fun _ => ⟨hq, hpts⟩, fun _ => rfl⟩
      · exact ⟨fun _ => ⟨hq, hpts⟩, fun _ => rfl⟩

/-- C6 witness: a wrong-dimension query on a non-empty index raises
`DimensionMismatch`, and a mismatched construction fails. -/
theorem C6_witness :
    T1.nearest [(1 : ℚ), 2] = .error .dimensionMismatch ∧
    (KDTree.make [[(0 : ℚ), 0], [0, 0], [0]] 1 = .error .dimensionMismatch ↔
      ∃ i, i < ([[(0 : ℚ), 0], [0, 0], [0]] : List Pt).length ∧
        (([[(0 : ℚ), 0], [0, 0], [0]] : List Pt).getD i []).length ≠
          (([[(0 : ℚ), 0], [0, 0], [0]] : List Pt).headD []).length) :=
  ⟨((C6_dimension_mismatch_exactly [[0], [2]] 1).2 T1 [1, 2] T1_make).1.mpr
      (by refine ⟨by decide, by decide⟩),
   (C6_dimension_mismatch_exactly [[(0 : ℚ), 0], [0, 0], [0]] 1).1⟩

/-- C7: the empty point set is a valid input: construction succeeds with
`k = 0`, and every query — of any length — gets the sentinel index `-1`
from `nearest` and the sentinel `GREAT` from `nearestDistSqr`, with no
error raised. -/
theorem C7_empty_index_sentinels (ls : Nat) (q : Pt) :
    ∃ t : KDTree, KDTree.make ([] : List Pt) ls = .ok t ∧ t.k = 0 ∧
      t.nearest q = .ok (-1) ∧ t.nearestDistSqr q = .ok GREAT := by
  refine ⟨{ points := [], k := 0, leafSize := ls, root := Node.nil }, rfl, rfl, ?_, ?_⟩
  · exact nearest_root_nil rfl q
  · exact nearestDistSqr_root_nil rfl q

/-- C8: on a non-empty index, `nearest` returns a valid index into the
original point sequence for every query of length `k`; and `-1` is
returned only for the empty index (for any query whatsoever). -/
theorem C8_nonempty_returns_valid_index
    (pts : List Pt) (ls : Nat) (t : KDTree) (q : Pt)
    (h : KDTree.make pts ls = .ok t) (hq : q.length = t.k) :
    (pts ≠ [] → ∃ j : Nat, t.nearest q = .ok ((j : Nat) : Int) ∧ j < pts.length) ∧
    (∀ q2 : Pt, t.nearest q2 = .ok (-1) → pts = []) := by
  constructor
  · intro hne
    obtain ⟨j, hj, hn, _⟩ := nearest_found h hq hne
    exact ⟨j, hn, hj⟩
  · intro q2 he
    by_cases hpts : pts = []
    · exact hpts
    · exfalso
      obtain ⟨hp, _, _, hnecase⟩ := make_ok_spec h
      obtain ⟨_, _, _, _, hroot⟩ := hnecase hpts
      by_cases hq2 : q2.length = t.k
      · obtain ⟨j, hj, hn, _⟩ := nearest_found h hq2 hpts
        rw [hn] at he
        rw [Except.ok.injEq] at he
        omega
      · rw [nearest_dim_error hroot hq2] at he
        exact absurd he (by simp)

/-- C8 witness: the two-point index returns index `1` for the query
`[1]`. -/
theorem C8_witness :
    (([[0], [2]] : List Pt) ≠ [] →
      ∃ j : Nat, T1.nearest [1] = .ok ((j : Nat) : Int) ∧
        j < ([[0], [2]] : List Pt).length) ∧
    (∀ q2 : Pt, T1.nearest q2 = .ok (-1) → ([[0], [2]] : List Pt) = []) :=
  C8_nonempty_returns_valid_index [[0], [2]] 1 T1 [1] T1_make rfl

/-- C9: during the search a candidate replaces the current best only
when its squared distance is strictly smaller: the whole traversal
either leaves the incoming state untouched (in particular when every
candidate ties or is worse) or strictly lowers the best distance to that
of one of the visited points; and the local update rule keeps the
existing best whenever the candidate is not strictly closer — so among
equally distant points the earliest-found wins. -/
theorem C9_ties_never_replace (pts : List Pt) (k : Nat) (q : Pt)
    (nd : Node) (s : Int × WithTop ℚ) :
    (nearestSearch pts k q nd s = s ∨
      ((nearestSearch pts k q nd s).2 < s.2 ∧
        ∃ i ∈ treeIdxs nd, nearestSearch pts k q nd s =
          ((i : Int), ((distSqr k (pts.getD i []) q : ℚ) : WithTop ℚ)))) ∧
    (∀ (u : Int × WithTop ℚ) (idx : Nat),
      ¬(((distSqr k (pts.getD idx []) q : ℚ) : WithTop ℚ) < u.2) →
        updBest pts k q u idx = u) :=
  ⟨nearestSearch_cases pts k q nd s,
   fun u idx hn => by unfold updBest; rw [if_neg hn]⟩

/-- C10: the modulo-by-zero branch of `buildTree` is reachable:
construction validates only emptiness and dimension consistency, so a
non-empty set of zero-length points with more points than `leafSize`
passes validation and reaches `depth % k` with `k = 0` — modelled as the
`modByZero` fault, distinct from any `DimensionMismatch`. -/
theorem C10_mod_by_zero_reachable (ls n : Nat) (h : ls < n) :
    KDTree.make (List.replicate n ([] : Pt)) ls = .error .modByZero ∧
    buildTree (List.replicate n ([] : Pt)) 0 ls (List.range n) 0 n 0 =
      .error .modByZero :=
  modZero_reachable ls n h

/-- C10 witness: two zero-length points with `leafSize = 1`. -/
theorem C10_witness :
    KDTree.make (List.replicate 2 ([] : Pt)) 1 = .error .modByZero ∧
    buildTree (List.replicate 2 ([] : Pt)) 0 1 (List.range 2) 0 2 0 =
      .error .modByZero :=
  C10_mod_by_zero_reachable 1 2 (by decide)
